/-
Verification of the active-series tracker (pkg/ingester/activeseries).

We shallowly embed the Go implementation as pure Lean functions: the
per-tenant tracker `ActiveSeries` holds 512 stripes; each stripe holds an
association list from 64-bit fingerprints to collision chains of entries.
Locks and atomics of the source are erased (the claims under study are
sequential properties); a compare-and-swap that cannot be contended in a
sequential execution always succeeds.

Machine integers: Go `int64` timestamps are modelled as `Int`, with the
`math.MaxInt64` sentinel of `purge` made explicit as `2 ^ 63 - 1`.
Go slices of `int` are modelled with their capacity (`GoIntSlice`) because
`resizeAndClear` branches on capacity.
-/
import Mathlib

set_option linter.unusedVariables false

/-- A canonical label set: an ordered list of (name, value) pairs.
Go `labels.Labels`; `labels.Equal` is structural equality. -/
abbrev Labels := List (String × String)

/-- The opaque matcher dependency (`*Matchers`): a stable ordered list of
names and a `Matches` function returning a bit-vector of the same length.
The length contract is stated as a hypothesis where theorems need it. -/
structure Matchers where
  MatcherNames : List String
  Matches : Labels → List Bool

/-- Go `math.MaxInt64`. -/
def maxInt64 : Int := 2 ^ 63 - 1

/-- Number of stripes (`numActiveSeriesStripes`). -/
def numActiveSeriesStripes : Nat := 512

/-- A Go `[]int` with its capacity, because `resizeAndClear` branches on
`cap(prev)`. `elems` is the visible content. -/
structure GoIntSlice where
  cap : Nat
  elems : List Int
deriving DecidableEq

/-- Go `nil` slice of ints. -/
def nilIntSlice : GoIntSlice := ⟨0, []⟩

/-- `resizeAndClear(l, prev)`: if `cap(prev) < l`, allocate anew with
capacity `l*2` (or return nil for `l == 0`); otherwise reslice `prev` to
length `l` (keeping its capacity) and zero it in place. -/
def resizeAndClear (l : Nat) (prev : GoIntSlice) : GoIntSlice :=
  if prev.cap < l then
    if l = 0 then nilIntSlice
    else ⟨l * 2, List.replicate l 0⟩
  else
    ⟨prev.cap, List.replicate l 0⟩

/-- One tracked series (`activeSeriesEntry`): owned labels, the nanosecond
timestamp (the atomic cell's current value), and the precomputed matcher
bit-vector. -/
structure activeSeriesEntry where
  lbs : Labels
  nanos : Int
  matchesVec : List Bool
deriving DecidableEq

/-- Lookup in the Go map `refs`, modelled as an association list.
A missing fingerprint yields the empty chain, like indexing a Go map. -/
def mapGet (m : List (Nat × List activeSeriesEntry)) (k : Nat) :
    List activeSeriesEntry :=
  match m with
  | [] => []
  | (k', v) :: rest => if k' = k then v else mapGet rest k

/-- Assignment `refs[fp] = chain` in the Go map: replace the first binding
of the key, or append a fresh binding. -/
def mapSet (m : List (Nat × List activeSeriesEntry)) (k : Nat)
    (v : List activeSeriesEntry) : List (Nat × List activeSeriesEntry) :=
  match m with
  | [] => [(k, v)]
  | (k', v') :: rest =>
      if k' = k then (k, v) :: rest else (k', v') :: mapSet rest k v

/-- Walk a collision chain comparing label sets structurally; on a hit
return the entry's timestamp value (the source returns the atomic cell). -/
def findInChain (chain : List activeSeriesEntry) (series : Labels) :
    Option Int :=
  match chain with
  | [] => none
  | e :: rest => if e.lbs = series then some e.nanos else findInChain rest series

/-- Store `t` through the timestamp cell of the first entry of the chain
whose labels equal `series` (the effect of `e.CAS(prev, nowNanos)`). -/
def setChainNanos (chain : List activeSeriesEntry) (series : Labels)
    (t : Int) : List activeSeriesEntry :=
  match chain with
  | [] => []
  | e :: rest =>
      if e.lbs = series then { e with nanos := t } :: rest
      else e :: setChainNanos rest series t

/-- Store `t` into the timestamp of series `series` under key `fp`. -/
def setNanos (m : List (Nat × List activeSeriesEntry)) (fp : Nat)
    (series : Labels) (t : Int) : List (Nat × List activeSeriesEntry) :=
  mapSet m fp (setChainNanos (mapGet m fp) series t)

/-- All entries stored in a `refs` map, in association-list order. -/
def allEntries : List (Nat × List activeSeriesEntry) →
    List activeSeriesEntry
  | [] => []
  | (_, ch) :: rest => ch ++ allEntries rest

/-- The loop `for i, ok := range matches { if ok { acc[i]++ } }`.
Positions of `acc` beyond `matches` are untouched. -/
def incrementMatches : List Bool → List Int → List Int
  | [], acc => acc
  | _ :: _, [] => []
  | ok :: ms, a :: rest =>
      (if ok then a + 1 else a) :: incrementMatches ms rest

/-- The loop `for i, a := range src { matching[i] += a }` of
`getTotalAndUpdateMatching`: add `src` element-wise into `matching`. -/
def addInto : List Int → List Int → List Int
  | [], m => m
  | _ :: _, [] => []
  | a :: as_, b :: bs => (b + a) :: addInto as_ bs

/-- One stripe (`activeSeriesStripe`): matchers, the oldest-entry hint,
the fingerprint map, and the cached counters. -/
structure activeSeriesStripe where
  matchers : Matchers
  oldestEntryTs : Int
  refs : List (Nat × List activeSeriesEntry)
  active : Int
  activeMatching : GoIntSlice

namespace activeSeriesStripe

/-- Lookup under read-lock (`findEntryForSeries`): the timestamp cell of
the series, or `none`. -/
def findEntryForSeries (s : activeSeriesStripe) (fingerprint : Nat)
    (series : Labels) : Option Int :=
  findInChain (mapGet s.refs fingerprint) series

/-- Lookup-or-insert under write-lock (`findOrCreateEntryForSeries`).
Returns the new stripe, the entry's timestamp value, and whether the
timestamp was set at insertion. The label deep copy is value semantics
here. -/
def findOrCreateEntryForSeries (s : activeSeriesStripe) (fingerprint : Nat)
    (series : Labels) (nowNanos : Int) :
    activeSeriesStripe × Int × Bool :=
  match findInChain (mapGet s.refs fingerprint) series with
  | some v => (s, v, false)
  | none =>
      let mv := s.matchers.Matches series
      let e : activeSeriesEntry :=
        { lbs := series, nanos := nowNanos, matchesVec := mv }
      ({ s with
          active := s.active + 1
          activeMatching :=
            { s.activeMatching with
                elems := incrementMatches mv s.activeMatching.elems }
          refs := mapSet s.refs fingerprint (mapGet s.refs fingerprint ++ [e]) },
        nowNanos, true)

/-- The hot-path update (`updateSeriesTimestamp`): lookup, optional insert,
timestamp advance by CAS, oldest-hint invalidation. Sequentially the CAS
succeeds whenever attempted. -/
def updateSeriesTimestamp (s : activeSeriesStripe) (now : Int)
    (series : Labels) (fingerprint : Nat) : activeSeriesStripe :=
  let nowNanos := now
  let step1 : activeSeriesStripe × Int × Bool :=
    match s.findEntryForSeries fingerprint series with
    | some v => (s, v, false)
    | none => s.findOrCreateEntryForSeries fingerprint series nowNanos
  let s1 := step1.1
  let prev := step1.2.1
  let entryTimeSet0 := step1.2.2
  let step2 : activeSeriesStripe × Bool :=
    if entryTimeSet0 then (s1, true)
    else if nowNanos > prev then
      ({ s1 with refs := setNanos s1.refs fingerprint series nowNanos }, true)
    else (s1, false)
  let s2 := step2.1
  let entryTimeSet := step2.2
  if entryTimeSet ∧ nowNanos < s2.oldestEntryTs then
    { s2 with oldestEntryTs := 0 }
  else s2

/-- Read path of `Active` (`getTotalAndUpdateMatching`): add the stripe's
per-matcher counters into the caller's vector, return the active count. -/
def getTotalAndUpdateMatching (s : activeSeriesStripe) (matching : List Int) :
    Int × List Int :=
  (s.active, addInto s.activeMatching.elems matching)

/-- The stripe reset the code performs on a matcher reload (its name in
the source ends in -initialize): drop all content and resize the per-matcher counters
to the new matcher set. -/
def reinit (s : activeSeriesStripe) (asm : Matchers) :
    activeSeriesStripe :=
  { s with
      oldestEntryTs := 0
      refs := []
      active := 0
      matchers := asm
      activeMatching :=
        resizeAndClear asm.MatcherNames.length s.activeMatching }

end activeSeriesStripe

/-- The in-place collision-chain filter of `purge`: drop entries strictly
older than the cutoff, folding the running minimum over the kept ones. -/
def filterChainOldest (keepUntilNanos : Int) :
    List activeSeriesEntry → Int → List activeSeriesEntry × Int
  | [], oldest => ([], oldest)
  | e :: rest, oldest =>
      if e.nanos < keepUntilNanos then
        filterChainOldest keepUntilNanos rest oldest
      else
        let oldest' := if e.nanos < oldest then e.nanos else oldest
        let r := filterChainOldest keepUntilNanos rest oldest'
        (e :: r.1, r.2)

/-- The map loop of `purge`: rebuild `refs` while accumulating the local
`active` count, the local per-matcher counters and the running oldest
timestamp. Singleton chains take the optimized branch of the source. -/
def purgeRefs (keepUntilNanos : Int) :
    List (Nat × List activeSeriesEntry) → Int → List Int → Int →
    List (Nat × List activeSeriesEntry) × Int × List Int × Int
  | [], active, activeMatching, oldest => ([], active, activeMatching, oldest)
  | (fp, [e]) :: rest, active, activeMatching, oldest =>
      if e.nanos < keepUntilNanos then
        purgeRefs keepUntilNanos rest active activeMatching oldest
      else
        let oldest' := if e.nanos < oldest then e.nanos else oldest
        let r := purgeRefs keepUntilNanos rest (active + 1)
          (incrementMatches e.matchesVec activeMatching) oldest'
        ((fp, [e]) :: r.1, r.2)
  | (fp, entries) :: rest, active, activeMatching, oldest =>
      let f := filterChainOldest keepUntilNanos entries oldest
      if f.1.isEmpty then
        purgeRefs keepUntilNanos rest active activeMatching f.2
      else
        let am := f.1.foldl (fun acc e => incrementMatches e.matchesVec acc)
          activeMatching
        let r := purgeRefs keepUntilNanos rest (active + (f.1.length : Int))
          am f.2
        ((fp, f.1) :: r.1, r.2)

/-- `purge(keepUntil)`: the oldest-hint fast path, else rebuild the map and
commit the recomputed counters; the hint becomes the exact survivor
minimum unless the `math.MaxInt64` sentinel survived untouched. -/
def activeSeriesStripe.purge (s : activeSeriesStripe) (keepUntilNanos : Int) :
    activeSeriesStripe :=
  if s.oldestEntryTs > 0 ∧ keepUntilNanos ≤ s.oldestEntryTs then s
  else
    let am0 := resizeAndClear s.activeMatching.elems.length s.activeMatching
    let r := purgeRefs keepUntilNanos s.refs 0 am0.elems maxInt64
    { s with
        refs := r.1
        active := r.2.1
        activeMatching := { am0 with elems := r.2.2.1 }
        oldestEntryTs := if r.2.2.2 = maxInt64 then 0 else r.2.2.2 }

/-- The per-tenant tracker (`ActiveSeries`). The clock is not stored:
operations that read the clock in Go take `now` as an argument here. -/
structure ActiveSeries where
  stripes : Fin numActiveSeriesStripes → activeSeriesStripe
  matchers : Matchers
  lastMatchersUpdate : Int
  timeout : Int

/-- Stripe selection `fp % numActiveSeriesStripes`. -/
def stripeIdOf (fp : Nat) : Fin numActiveSeriesStripes :=
  ⟨fp % numActiveSeriesStripes, Nat.mod_lt _ (by decide)⟩

/-- `NewActiveSeries`: all stripes pre-initialized empty.
`lastMatchersUpdate` starts at the zero time, modelled as 0. -/
def NewActiveSeries (asm : Matchers) (idleTimeout : Int) : ActiveSeries :=
  { stripes := fun _ =>
      { matchers := asm
        oldestEntryTs := 0
        refs := []
        active := 0
        activeMatching := resizeAndClear asm.MatcherNames.length nilIntSlice }
    matchers := asm
    lastMatchersUpdate := 0
    timeout := idleTimeout }

namespace ActiveSeries

/-- `UpdateSeries(series, now, labelsCopy)`: hash, select the stripe, and
delegate. The hash function is the caller-supplied `labels.Hash`. -/
def UpdateSeries (hash : Labels → Nat) (c : ActiveSeries) (series : Labels)
    (now : Int) : ActiveSeries :=
  let fp := hash series
  let stripeID := stripeIdOf fp
  { c with
      stripes := Function.update c.stripes stripeID
        ((c.stripes stripeID).updateSeriesTimestamp now series fp) }

/-- The internal `purge(keepUntil)`: purge every stripe. -/
def purgeAll (c : ActiveSeries) (keepUntil : Int) : ActiveSeries :=
  { c with stripes := fun i => (c.stripes i).purge keepUntil }

/-- `ReloadMatchers(asm)`: reinit every stripe, swap the matcher set
and stamp the reload time. -/
def ReloadMatchers (c : ActiveSeries) (asm : Matchers) (now : Int) :
    ActiveSeries :=
  { c with
      stripes := fun i => (c.stripes i).reinit asm
      matchers := asm
      lastMatchersUpdate := now }

/-- `Active()`: purge with cutoff `now - timeout`, then sum the cached
counters of all stripes. Returns the purged tracker together with
`(total, totalMatching, valid)`. -/
def Active (c : ActiveSeries) (now : Int) :
    ActiveSeries × Int × List Int × Bool :=
  let purgeTime := now - c.timeout
  let c' := c.purgeAll purgeTime
  let totalMatching :=
    (resizeAndClear c.matchers.MatcherNames.length nilIntSlice).elems
  let r := (List.finRange numActiveSeriesStripes).foldl
    (fun (acc : Int × List Int) i =>
      let g := (c'.stripes i).getTotalAndUpdateMatching acc.2
      (acc.1 + g.1, g.2))
    ((0 : Int), totalMatching)
  (c', r.1, r.2, decide (c.lastMatchersUpdate < purgeTime))

end ActiveSeries

/-- The stored timestamp of a series, read through the tracker the way
`UpdateSeries` routes to it: hash, stripe selection, chain lookup. -/
def lookupSeries (hash : Labels → Nat) (c : ActiveSeries) (series : Labels) :
    Option Int :=
  (c.stripes (stripeIdOf (hash series))).findEntryForSeries (hash series) series

/-- The fingerprint keys of a refs map. -/
def keysOf (m : List (Nat × List activeSeriesEntry)) : List Nat :=
  m.map Prod.fst

/-- Declarative description of what purge does to `refs`, written from the
spec: every entry strictly older than the cutoff is removed (ties kept),
and a fingerprint key is deleted exactly when its chain becomes empty. -/
def purgeRefsSpec (keepUntilNanos : Int)
    (m : List (Nat × List activeSeriesEntry)) :
    List (Nat × List activeSeriesEntry) :=
  m.filterMap (fun p =>
    let ch := p.2.filter (fun e => decide (keepUntilNanos ≤ e.nanos))
    if ch = [] then none else some (p.1, ch))

/-- Number of entries of a list whose precomputed bit-vector is true at
matcher index `j`. -/
def countMatch (j : Nat) (es : List activeSeriesEntry) : Nat :=
  es.countP (fun e => e.matchesVec.getD j false)

/-- The label sets currently stored in a stripe. -/
def stripeLabels (s : activeSeriesStripe) : List Labels :=
  (allEntries s.refs).map (·.lbs)

/-- Invariant I1: the cached `active` counter equals the total chain
length. -/
abbrev ActiveCountInv (s : activeSeriesStripe) : Prop :=
  s.active = ((allEntries s.refs).length : Int)

/-- Invariant I2: for each matcher index below the counter-vector length,
`activeMatching` caches the number of entries matching that matcher. -/
abbrev MatchingCountInv (s : activeSeriesStripe) : Prop :=
  ∀ j < s.activeMatching.elems.length,
    s.activeMatching.elems.getD j 0 = (countMatch j (allEntries s.refs) : Int)

/-- Invariant I3: the oldest-entry hint is 0 (unknown) or a lower bound on
every stored timestamp. -/
abbrev OldestHintInv (s : activeSeriesStripe) : Prop :=
  s.oldestEntryTs = 0 ∨ ∀ e ∈ allEntries s.refs, s.oldestEntryTs ≤ e.nanos

/-- Invariant I4: every fingerprint key maps to a non-empty chain. -/
abbrev ChainsNonemptyInv (s : activeSeriesStripe) : Prop :=
  ∀ p ∈ s.refs, p.2 ≠ []

/-- Invariant I6 (length part): every entry's bit-vector has the length of
the stripe's counter vector. -/
abbrev MatchesLenInv (s : activeSeriesStripe) : Prop :=
  ∀ e ∈ allEntries s.refs, e.matchesVec.length = s.activeMatching.elems.length

/-- Full per-stripe well-formedness used for the end-to-end counting
theorem: placement of entries by fingerprint and stripe, key and label
uniqueness, agreement of cached data with the matcher set `m`, the
timestamp lower bound `T0`, and the cached counters. -/
structure StripeWF (hash : Labels → Nat) (m : Matchers) (T0 : Int)
    (i : Fin numActiveSeriesStripes) (s : activeSeriesStripe) : Prop where
  placement_hash : ∀ p ∈ s.refs, ∀ e ∈ p.2, hash e.lbs = p.1
  placement_stripe : ∀ p ∈ s.refs, p.1 % numActiveSeriesStripes = i.val
  keys_nodup : (keysOf s.refs).Nodup
  chains_nodup : ∀ p ∈ s.refs, (p.2.map (·.lbs)).Nodup
  matches_eq : ∀ e ∈ allEntries s.refs, e.matchesVec = m.Matches e.lbs
  ts_lb : ∀ e ∈ allEntries s.refs, T0 ≤ e.nanos
  hint_ok : s.oldestEntryTs = 0 ∨ ∀ e ∈ allEntries s.refs, s.oldestEntryTs ≤ e.nanos
  active_ok : s.active = ((allEntries s.refs).length : Int)
  matching_len : s.activeMatching.elems.length = m.MatcherNames.length
  matching_ok : ∀ j, s.activeMatching.elems.getD j 0 = (countMatch j (allEntries s.refs) : Int)
  matchers_eq : s.matchers = m

/-- Tracker-level well-formedness: every stripe is well formed and the
labels stored anywhere are exactly those of the list `L`. -/
structure TrackerWF (hash : Labels → Nat) (m : Matchers) (T0 : Int)
    (c : ActiveSeries) (L : List Labels) : Prop where
  stripes_wf : ∀ i, StripeWF hash m T0 i (c.stripes i)
  mem_iff : ∀ l, (∃ i, l ∈ stripeLabels (c.stripes i)) ↔ l ∈ L
  matchers_eq : c.matchers = m

/-- Concatenation of the stored labels of the listed stripes. -/
def catLabels (f : Fin numActiveSeriesStripes → activeSeriesStripe) :
    List (Fin numActiveSeriesStripes) → List Labels
  | [] => []
  | i :: is => stripeLabels (f i) ++ catLabels f is

/-- Concatenation of the stored entries of the listed stripes. -/
def catEntries (f : Fin numActiveSeriesStripes → activeSeriesStripe) :
    List (Fin numActiveSeriesStripes) → List activeSeriesEntry
  | [] => []
  | i :: is => allEntries (f i).refs ++ catEntries f is

/-- Concrete label sets used by witness theorems. -/
def lblA : Labels := [("name", "a")]

/-- Second concrete label set. -/
def lblB : Labels := [("name", "b")]

/-- Third concrete label set. -/
def lblC : Labels := [("name", "c")]

/-- A one-matcher set tracking exactly `lblA`. -/
def mOne : Matchers :=
  { MatcherNames := ["tracks-a"], Matches := fun l => [decide (l = lblA)] }

/-- A toy fingerprint function for witnesses (hash by list length, so all
the labels above collide). -/
def lenHash : Labels → Nat := fun l => l.length

/-- Witness entry: `lblA` last seen at 5. -/
def entryA5 : activeSeriesEntry := ⟨lblA, 5, [true]⟩

/-- Witness entry: `lblB` last seen at 9. -/
def entryB9 : activeSeriesEntry := ⟨lblB, 9, [false]⟩

/-- Witness entry: `lblC` last seen at 4. -/
def entryC4 : activeSeriesEntry := ⟨lblC, 4, [false]⟩

/-- Witness entry carrying the `math.MaxInt64` timestamp. -/
def entryMax : activeSeriesEntry := ⟨lblA, maxInt64, [true]⟩

/-- Witness stripe with a two-entry collision chain and a singleton. -/
def stripeCollide : activeSeriesStripe :=
  { matchers := mOne, oldestEntryTs := 4,
    refs := [(7, [entryA5, entryB9]), (8, [entryC4])],
    active := 3, activeMatching := ⟨1, [1]⟩ }

/-- Witness stripe whose only entry sits at `maxInt64`. -/
def stripeMax : activeSeriesStripe :=
  { matchers := mOne, oldestEntryTs := 0,
    refs := [(0, [entryMax])], active := 1, activeMatching := ⟨1, [1]⟩ }

/-- The initial stripe of `NewActiveSeries mOne timeout`. -/
def stripeInit : activeSeriesStripe :=
  { matchers := mOne, oldestEntryTs := 0, refs := [], active := 0,
    activeMatching := resizeAndClear mOne.MatcherNames.length nilIntSlice }

theorem mapGet_mapSet_self (m : List (Nat × List activeSeriesEntry))
    (k : Nat) (v : List activeSeriesEntry) :
    mapGet (mapSet m k v) k = v := by
  induction m with
  | nil => simp [mapSet, mapGet]
  | cons p rest ih =>
    obtain ⟨k', v'⟩ := p
    by_cases h : k' = k
    · simp [mapSet, mapGet, h]
    · simp [mapSet, mapGet, h, ih]

theorem mapGet_mapSet_ne (m : List (Nat × List activeSeriesEntry))
    {k k' : Nat} (v : List activeSeriesEntry) (h : k ≠ k') :
    mapGet (mapSet m k v) k' = mapGet m k' := by
  induction m with
  | nil => simp [mapSet, mapGet, h]
  | cons p rest ih =>
    obtain ⟨k0, v0⟩ := p
    by_cases h0 : k0 = k
    · subst h0; simp [mapSet, mapGet, h]
    · by_cases h1 : k0 = k'
      · subst h1; simp [mapSet, mapGet, h0]
      · simp [mapSet, mapGet, h0, h1, ih]

theorem keysOf_cons (k : Nat) (v : List activeSeriesEntry)
    (rest : List (Nat × List activeSeriesEntry)) :
    keysOf ((k, v) :: rest) = k :: keysOf rest := rfl

theorem allEntries_append (m₁ m₂ : List (Nat × List activeSeriesEntry)) :
    allEntries (m₁ ++ m₂) = allEntries m₁ ++ allEntries m₂ := by
  induction m₁ with
  | nil => simp [allEntries]
  | cons p rest ih => obtain ⟨k, ch⟩ := p; simp [allEntries, ih]

theorem mapGet_eq_nil_of_not_mem {m : List (Nat × List activeSeriesEntry)}
    {k : Nat} (h : k ∉ keysOf m) : mapGet m k = [] := by
  induction m with
  | nil => rfl
  | cons p rest ih =>
    obtain ⟨k', v'⟩ := p
    simp only [keysOf_cons, List.mem_cons, not_or] at h
    have hne : ¬ k' = k := fun hh => h.1 hh.symm
    simp [mapGet, hne, ih h.2]

theorem mapSet_of_not_mem {m : List (Nat × List activeSeriesEntry)}
    {k : Nat} (v : List activeSeriesEntry) (h : k ∉ keysOf m) :
    mapSet m k v = m ++ [(k, v)] := by
  induction m with
  | nil => rfl
  | cons p rest ih =>
    obtain ⟨k', v'⟩ := p
    simp only [keysOf_cons, List.mem_cons, not_or] at h
    have hne : ¬ k' = k := fun hh => h.1 hh.symm
    simp [mapSet, hne, ih h.2]

theorem keysOf_mapSet_of_mem {m : List (Nat × List activeSeriesEntry)}
    {k : Nat} (v : List activeSeriesEntry) (h : k ∈ keysOf m) :
    keysOf (mapSet m k v) = keysOf m := by
  induction m with
  | nil => simp [keysOf] at h
  | cons p rest ih =>
    obtain ⟨k', v'⟩ := p
    by_cases h0 : k' = k
    · simp [mapSet, keysOf, h0]
    · simp only [keysOf_cons, List.mem_cons] at h
      rcases h with h | h
      · exact absurd h.symm h0
      · simp [mapSet, h0, keysOf_cons, ih h]

theorem mem_mapSet {m : List (Nat × List activeSeriesEntry)}
    {k : Nat} {v : List activeSeriesEntry} {p : Nat × List activeSeriesEntry}
    (hp : p ∈ mapSet m k v) : p = (k, v) ∨ p ∈ m := by
  induction m with
  | nil => simpa [mapSet] using hp
  | cons q rest ih =>
    obtain ⟨k', v'⟩ := q
    by_cases h0 : k' = k
    · simp [mapSet, h0] at hp
      rcases hp with h | h
      · exact Or.inl (by simp [h])
      · exact Or.inr (by simp [h])
    · simp [mapSet, h0] at hp
      rcases hp with h | h
      · exact Or.inr (by simp [h])
      · rcases ih h with h1 | h1
        · exact Or.inl h1
        · exact Or.inr (by simp [h1])

theorem findInChain_eq_none_iff {ch : List activeSeriesEntry} {l : Labels} :
    findInChain ch l = none ↔ ∀ e ∈ ch, e.lbs ≠ l := by
  induction ch with
  | nil => simp [findInChain]
  | cons e rest ih =>
    by_cases h : e.lbs = l
    · simp [findInChain, h]
    · simp [findInChain, h, ih]

theorem findInChain_append_of_none {ch ch₂ : List activeSeriesEntry}
    {l : Labels} (h : findInChain ch l = none) :
    findInChain (ch ++ ch₂) l = findInChain ch₂ l := by
  induction ch with
  | nil => rfl
  | cons e rest ih =>
    simp [findInChain] at h ⊢
    by_cases h0 : e.lbs = l
    · simp [h0] at h
    · simp [findInChain, h0] at h ⊢
      exact ih h

theorem findInChain_isSome_of_mem {ch : List activeSeriesEntry} {l : Labels}
    (h : l ∈ ch.map (·.lbs)) : ∃ v, findInChain ch l = some v := by
  induction ch with
  | nil => simp at h
  | cons e rest ih =>
    by_cases h0 : e.lbs = l
    · exact ⟨e.nanos, by simp [findInChain, h0]⟩
    · have h1 : l = e.lbs ∨ l ∈ rest.map (·.lbs) := by
        simpa only [List.map_cons, List.mem_cons] using h
      rcases h1 with h1 | h1
      · exact absurd h1.symm h0
      · rcases ih h1 with ⟨v, hv⟩
        exact ⟨v, by simp [findInChain, h0, hv]⟩

theorem setChainNanos_map_lbs (ch : List activeSeriesEntry) (l : Labels)
    (t : Int) : (setChainNanos ch l t).map (·.lbs) = ch.map (·.lbs) := by
  induction ch with
  | nil => rfl
  | cons e rest ih =>
    by_cases h : e.lbs = l
    · simp [setChainNanos, h]
    · simp [setChainNanos, h, ih]

theorem setChainNanos_map_matchesVec (ch : List activeSeriesEntry)
    (l : Labels) (t : Int) :
    (setChainNanos ch l t).map (·.matchesVec) = ch.map (·.matchesVec) := by
  induction ch with
  | nil => rfl
  | cons e rest ih =>
    by_cases h : e.lbs = l
    · simp [setChainNanos, h]
    · simp [setChainNanos, h, ih]

theorem length_setChainNanos (ch : List activeSeriesEntry) (l : Labels)
    (t : Int) : (setChainNanos ch l t).length = ch.length := by
  induction ch with
  | nil => rfl
  | cons e rest ih =>
    by_cases h : e.lbs = l
    · simp [setChainNanos, h]
    · simp [setChainNanos, h, ih]

theorem findInChain_setChainNanos_self {ch : List activeSeriesEntry}
    {l : Labels} {v : Int} (t : Int) (h : findInChain ch l = some v) :
    findInChain (setChainNanos ch l t) l = some t := by
  induction ch with
  | nil => simp [findInChain] at h
  | cons e rest ih =>
    by_cases h0 : e.lbs = l
    · simp [setChainNanos, findInChain, h0]
    · simp [findInChain, h0] at h
      simp [setChainNanos, findInChain, h0, ih h]

theorem mem_setChainNanos {ch : List activeSeriesEntry} {l : Labels}
    {t : Int} {e' : activeSeriesEntry} (h : e' ∈ setChainNanos ch l t) :
    e'.nanos = t ∨ e' ∈ ch := by
  induction ch with
  | nil => simp [setChainNanos] at h
  | cons e rest ih =>
    by_cases h0 : e.lbs = l
    · simp [setChainNanos, h0] at h
      rcases h with h | h
      · exact Or.inl (by simp [h])
      · exact Or.inr (by simp [h])
    · simp [setChainNanos, h0] at h
      rcases h with h | h
      · exact Or.inr (by simp [h])
      · rcases ih h with h1 | h1
        · exact Or.inl h1
        · exact Or.inr (by simp [h1])

theorem incrementMatches_length {ms : List Bool} {acc : List Int}
    (h : ms.length ≤ acc.length) :
    (incrementMatches ms acc).length = acc.length := by
  induction ms generalizing acc with
  | nil => simp [incrementMatches]
  | cons ok ms ih =>
    cases acc with
    | nil => simp at h
    | cons a rest =>
      simp [incrementMatches]
      exact ih (by simpa using h)

theorem incrementMatches_getD {ms : List Bool} {acc : List Int}
    (h : ms.length ≤ acc.length) (j : Nat) :
    (incrementMatches ms acc).getD j 0 =
      acc.getD j 0 + (if ms.getD j false then 1 else 0) := by
  induction ms generalizing acc j with
  | nil => simp [incrementMatches, List.getD]
  | cons ok ms ih =>
    cases acc with
    | nil => simp at h
    | cons a rest =>
      cases j with
      | zero => cases ok <;> simp [incrementMatches, List.getD]
      | succ j =>
        simp [incrementMatches, List.getD]
        simpa [List.getD] using @ih rest (by simpa using h) j

theorem addInto_length {a b : List Int} (h : a.length ≤ b.length) :
    (addInto a b).length = b.length := by
  induction a generalizing b with
  | nil => simp [addInto]
  | cons x xs ih =>
    cases b with
    | nil => simp at h
    | cons y ys =>
      simp [addInto]
      exact ih (by simpa using h)

theorem addInto_getD {a b : List Int} (h : a.length ≤ b.length) (j : Nat) :
    (addInto a b).getD j 0 = b.getD j 0 + a.getD j 0 := by
  induction a generalizing b j with
  | nil => simp [addInto, List.getD]
  | cons x xs ih =>
    cases b with
    | nil => simp at h
    | cons y ys =>
      cases j with
      | zero => simp [addInto, List.getD]
      | succ j =>
        simp [addInto, List.getD]
        simpa [List.getD] using ih (b := ys) (by simpa using h) j

theorem countMatch_append (j : Nat) (es₁ es₂ : List activeSeriesEntry) :
    countMatch j (es₁ ++ es₂) = countMatch j es₁ + countMatch j es₂ :=
  List.countP_append _ _ _

theorem countMatch_congr {es es' : List activeSeriesEntry} (j : Nat)
    (h : es.map (·.matchesVec) = es'.map (·.matchesVec)) :
    countMatch j es = countMatch j es' := by
  have h1 : ∀ xs : List activeSeriesEntry, countMatch j xs =
      (xs.map (·.matchesVec)).countP (fun v => v.getD j false) := by
    intro xs
    rw [List.countP_map]
    rfl
  rw [h1, h1, h]

theorem countMatch_perm {es es' : List activeSeriesEntry} (j : Nat)
    (h : es.Perm es') : countMatch j es = countMatch j es' :=
  h.countP_eq _

theorem mem_allEntries_mapSet {m : List (Nat × List activeSeriesEntry)}
    {k : Nat} {v : List activeSeriesEntry} {e' : activeSeriesEntry}
    (h : e' ∈ allEntries (mapSet m k v)) : e' ∈ v ∨ e' ∈ allEntries m := by
  induction m with
  | nil => simpa [mapSet, allEntries] using h
  | cons p rest ih =>
    obtain ⟨k', v'⟩ := p
    by_cases h0 : k' = k
    · simp [mapSet, allEntries, h0] at h
      rcases h with h | h
      · exact Or.inl h
      · exact Or.inr (by simp [allEntries, h])
    · simp [mapSet, allEntries, h0] at h
      rcases h with h | h
      · exact Or.inr (by simp [allEntries, h])
      · rcases ih h with h1 | h1
        · exact Or.inl h1
        · exact Or.inr (by simp [allEntries, h1])

theorem mem_allEntries_of_mem_mapGet {m : List (Nat × List activeSeriesEntry)}
    {k : Nat} {e' : activeSeriesEntry} (h : e' ∈ mapGet m k) :
    e' ∈ allEntries m := by
  induction m with
  | nil => simp [mapGet] at h
  | cons p rest ih =>
    obtain ⟨k', v'⟩ := p
    by_cases h0 : k' = k
    · simp [mapGet, h0] at h
      simp [allEntries, h]
    · simp [mapGet, h0] at h
      simp [allEntries, ih h]

theorem allEntries_mapSet_append_perm (m : List (Nat × List activeSeriesEntry))
    (k : Nat) (e : activeSeriesEntry) :
    (allEntries (mapSet m k (mapGet m k ++ [e]))).Perm
      (allEntries m ++ [e]) := by
  induction m with
  | nil => simp [mapSet, mapGet, allEntries]
  | cons p rest ih =>
    obtain ⟨k', v'⟩ := p
    by_cases h0 : k' = k
    · subst h0
      simp only [mapSet, mapGet, if_pos rfl, allEntries]
      rw [List.append_assoc, List.append_assoc]
      exact List.Perm.append_left v' List.perm_append_comm
    · simp only [mapSet, mapGet, if_neg h0, allEntries]
      rw [List.append_assoc]
      exact List.Perm.append_left v' ih

theorem allEntries_setNanos_map_lbs (m : List (Nat × List activeSeriesEntry))
    (fp : Nat) (l : Labels) (t : Int) :
    (allEntries (setNanos m fp l t)).map (·.lbs) =
      (allEntries m).map (·.lbs) := by
  induction m with
  | nil => simp [setNanos, mapSet, mapGet, allEntries, setChainNanos]
  | cons p rest ih =>
    obtain ⟨k', v'⟩ := p
    by_cases h0 : k' = fp
    · simp [setNanos, mapSet, mapGet, h0, allEntries, setChainNanos_map_lbs]
    · simp only [setNanos, mapSet, mapGet, h0, if_neg h0, allEntries]
      simp only [List.map_append, setChainNanos_map_lbs]
      have := ih
      simp only [setNanos] at this
      simp [this]

theorem allEntries_setNanos_map_matchesVec
    (m : List (Nat × List activeSeriesEntry)) (fp : Nat) (l : Labels)
    (t : Int) :
    (allEntries (setNanos m fp l t)).map (·.matchesVec) =
      (allEntries m).map (·.matchesVec) := by
  induction m with
  | nil => simp [setNanos, mapSet, mapGet, allEntries, setChainNanos]
  | cons p rest ih =>
    obtain ⟨k', v'⟩ := p
    by_cases h0 : k' = fp
    · simp [setNanos, mapSet, mapGet, h0, allEntries,
        setChainNanos_map_matchesVec]
    · simp only [setNanos, mapSet, mapGet, h0, if_neg h0, allEntries]
      simp only [List.map_append, setChainNanos_map_matchesVec]
      have := ih
      simp only [setNanos] at this
      simp [this]

theorem mem_allEntries_setNanos {m : List (Nat × List activeSeriesEntry)}
    {fp : Nat} {l : Labels} {t : Int} {e' : activeSeriesEntry}
    (h : e' ∈ allEntries (setNanos m fp l t)) :
    e'.nanos = t ∨ e' ∈ allEntries m := by
  rcases mem_allEntries_mapSet h with h1 | h1
  · rcases mem_setChainNanos h1 with h2 | h2
    · exact Or.inl h2
    · exact Or.inr (mem_allEntries_of_mem_mapGet h2)
  · exact Or.inr h1

theorem length_allEntries_setNanos (m : List (Nat × List activeSeriesEntry))
    (fp : Nat) (l : Labels) (t : Int) :
    (allEntries (setNanos m fp l t)).length = (allEntries m).length := by
  have h := congrArg List.length (allEntries_setNanos_map_lbs m fp l t)
  simpa using h

namespace activeSeriesStripe

theorem updateSeriesTimestamp_of_miss {s : activeSeriesStripe} {fp : Nat}
    {l : Labels} (t : Int)
    (h : findInChain (mapGet s.refs fp) l = none) :
    s.updateSeriesTimestamp t l fp =
      (let s1 : activeSeriesStripe :=
        { s with
            active := s.active + 1
            activeMatching :=
              { s.activeMatching with
                  elems := incrementMatches (s.matchers.Matches l)
                    s.activeMatching.elems }
            refs := mapSet s.refs fp (mapGet s.refs fp ++
              [{ lbs := l, nanos := t, matchesVec := s.matchers.Matches l }]) }
       if t < s.oldestEntryTs then { s1 with oldestEntryTs := 0 } else s1) := by
  simp only [updateSeriesTimestamp, findEntryForSeries,
    findOrCreateEntryForSeries, h]
  by_cases h1 : t < s.oldestEntryTs <;> simp [h1]

theorem updateSeriesTimestamp_of_hit_advance {s : activeSeriesStripe}
    {fp : Nat} {l : Labels} {prev : Int} (t : Int)
    (h : findInChain (mapGet s.refs fp) l = some prev) (ht : prev < t) :
    s.updateSeriesTimestamp t l fp =
      (let s1 : activeSeriesStripe := { s with refs := setNanos s.refs fp l t }
       if t < s.oldestEntryTs then { s1 with oldestEntryTs := 0 } else s1) := by
  simp only [updateSeriesTimestamp, findEntryForSeries, h]
  by_cases h1 : t < s.oldestEntryTs <;> simp [ht, h1]

theorem updateSeriesTimestamp_of_hit_noadvance {s : activeSeriesStripe}
    {fp : Nat} {l : Labels} {prev : Int} (t : Int)
    (h : findInChain (mapGet s.refs fp) l = some prev) (ht : ¬ prev < t) :
    s.updateSeriesTimestamp t l fp = s := by
  simp [updateSeriesTimestamp, findEntryForSeries, h, ht]

theorem findEntry_update_of_miss {s : activeSeriesStripe} {fp : Nat}
    {l : Labels} (t : Int)
    (h : findInChain (mapGet s.refs fp) l = none) :
    (s.updateSeriesTimestamp t l fp).findEntryForSeries fp l = some t := by
  rw [updateSeriesTimestamp_of_miss t h]
  by_cases h1 : t < s.oldestEntryTs <;>
    simp [h1, findEntryForSeries, mapGet_mapSet_self,
      findInChain_append_of_none h, findInChain]

theorem findEntry_update_of_hit {s : activeSeriesStripe} {fp : Nat}
    {l : Labels} {prev : Int} (t : Int)
    (h : findInChain (mapGet s.refs fp) l = some prev) :
    (s.updateSeriesTimestamp t l fp).findEntryForSeries fp l =
      some (max prev t) := by
  by_cases ht : prev < t
  · rw [updateSeriesTimestamp_of_hit_advance t h ht]
    have hmax : max prev t = t := max_eq_right (le_of_lt ht)
    by_cases h1 : t < s.oldestEntryTs <;>
      simp [h1, findEntryForSeries, setNanos, mapGet_mapSet_self,
        findInChain_setChainNanos_self t h, hmax]
  · rw [updateSeriesTimestamp_of_hit_noadvance t h ht]
    have hmax : max prev t = prev := max_eq_left (le_of_not_lt ht)
    simp [findEntryForSeries, h, hmax]

theorem updateSeriesTimestamp_idem (s : activeSeriesStripe) (t : Int)
    (l : Labels) (fp : Nat) :
    (s.updateSeriesTimestamp t l fp).updateSeriesTimestamp t l fp =
      s.updateSeriesTimestamp t l fp := by
  cases hfind : findInChain (mapGet s.refs fp) l with
  | none =>
    have h1 : (s.updateSeriesTimestamp t l fp).findEntryForSeries fp l =
        some t := findEntry_update_of_miss t hfind
    exact updateSeriesTimestamp_of_hit_noadvance t h1 (lt_irrefl t)
  | some prev =>
    by_cases ht : prev < t
    · have h1 : (s.updateSeriesTimestamp t l fp).findEntryForSeries fp l =
          some t := by
        have := findEntry_update_of_hit t hfind
        rwa [max_eq_right (le_of_lt ht)] at this
      exact updateSeriesTimestamp_of_hit_noadvance t h1 (lt_irrefl t)
    · rw [updateSeriesTimestamp_of_hit_noadvance t hfind ht,
        updateSeriesTimestamp_of_hit_noadvance t hfind ht]

end activeSeriesStripe

theorem mem_allEntries_of_mem {m : List (Nat × List activeSeriesEntry)}
    {p : Nat × List activeSeriesEntry} (hp : p ∈ m)
    {e : activeSeriesEntry} (he : e ∈ p.2) : e ∈ allEntries m := by
  induction m with
  | nil => simp at hp
  | cons q rest ih =>
    obtain ⟨k', v'⟩ := q
    rcases List.mem_cons.mp hp with hp | hp
    · rw [hp] at he
      simp only [allEntries, List.mem_append]
      exact Or.inl he
    · simp only [allEntries, List.mem_append]
      exact Or.inr (ih hp)

theorem resizeAndClear_elems (l : Nat) (prev : GoIntSlice) :
    (resizeAndClear l prev).elems = List.replicate l 0 := by
  unfold resizeAndClear
  by_cases h : prev.cap < l
  · by_cases h0 : l = 0
    · subst h0; simp [nilIntSlice]
    · simp [h, h0]
  · simp [h]

theorem getD_replicate_zero (n j : Nat) :
    (List.replicate n (0 : Int)).getD j 0 = 0 := by
  induction n generalizing j with
  | zero => simp [List.getD]
  | succ n ih =>
    cases j with
    | zero => simp [List.replicate, List.getD]
    | succ j => simpa [List.replicate, List.getD] using ih j

theorem countMatch_cons (j : Nat) (e : activeSeriesEntry)
    (es : List activeSeriesEntry) :
    countMatch j (e :: es) =
      countMatch j es + (if e.matchesVec.getD j false then 1 else 0) := by
  simp [countMatch, List.countP_cons]

theorem filterChainOldest_fst (k : Int) (ch : List activeSeriesEntry) :
    ∀ o, (filterChainOldest k ch o).1 =
      ch.filter (fun e => decide (k ≤ e.nanos)) := by
  induction ch with
  | nil => intro o; rfl
  | cons e rest ih =>
    intro o
    by_cases h : e.nanos < k
    · simp [filterChainOldest, h, List.filter_cons, not_le.mpr h, ih]
    · simp [filterChainOldest, h, List.filter_cons, not_lt.mp h, ih]

theorem filterChainOldest_cons_drop {k : Int} {e0 : activeSeriesEntry}
    (h : e0.nanos < k) (rest : List activeSeriesEntry) (o : Int) :
    filterChainOldest k (e0 :: rest) o = filterChainOldest k rest o := by
  simp [filterChainOldest, h]

theorem filterChainOldest_cons_keep {k : Int} {e0 : activeSeriesEntry}
    (h : ¬ e0.nanos < k) (rest : List activeSeriesEntry) (o : Int) :
    filterChainOldest k (e0 :: rest) o =
      (e0 :: (filterChainOldest k rest
          (if e0.nanos < o then e0.nanos else o)).1,
        (filterChainOldest k rest
          (if e0.nanos < o then e0.nanos else o)).2) := by
  simp [filterChainOldest, h]

theorem minIf_le_left {a o : Int} :
    (if a < o then a else o) ≤ a := by
  by_cases h : a < o
  · simp [h]
  · simp [h]; exact le_of_not_lt h

theorem minIf_le_right {a o : Int} :
    (if a < o then a else o) ≤ o := by
  by_cases h : a < o
  · simp [h]; exact le_of_lt h
  · simp [h]

theorem filterChainOldest_snd_le (k : Int) (ch : List activeSeriesEntry) :
    ∀ o, (filterChainOldest k ch o).2 ≤ o := by
  induction ch with
  | nil => intro o; simp [filterChainOldest]
  | cons e rest ih =>
    intro o
    by_cases h : e.nanos < k
    · rw [filterChainOldest_cons_drop h]
      exact ih o
    · rw [filterChainOldest_cons_keep h]
      exact le_trans (ih _) minIf_le_right

theorem filterChainOldest_snd_lb (k : Int) (ch : List activeSeriesEntry) :
    ∀ o, ∀ e ∈ (filterChainOldest k ch o).1,
      (filterChainOldest k ch o).2 ≤ e.nanos := by
  induction ch with
  | nil => intro o e he; simp [filterChainOldest] at he
  | cons e0 rest ih =>
    intro o e he
    by_cases h : e0.nanos < k
    · rw [filterChainOldest_cons_drop h] at he ⊢
      exact ih o e he
    · rw [filterChainOldest_cons_keep h] at he ⊢
      rcases List.mem_cons.mp he with he | he
      · subst he
        exact le_trans (filterChainOldest_snd_le k rest _) minIf_le_left
      · exact ih _ e he

theorem filterChainOldest_snd_attained (k : Int)
    (ch : List activeSeriesEntry) :
    ∀ o, (filterChainOldest k ch o).2 = o ∨
      ∃ e ∈ (filterChainOldest k ch o).1,
        (filterChainOldest k ch o).2 = e.nanos := by
  induction ch with
  | nil => intro o; exact Or.inl rfl
  | cons e0 rest ih =>
    intro o
    by_cases h : e0.nanos < k
    · rw [filterChainOldest_cons_drop h]
      exact ih o
    · rw [filterChainOldest_cons_keep h]
      by_cases h1 : e0.nanos < o
      · rw [if_pos h1]
        rcases ih e0.nanos with h2 | ⟨e, he, h2⟩
        · exact Or.inr ⟨e0, by simp, h2⟩
        · exact Or.inr ⟨e, by simp [he], h2⟩
      · rw [if_neg h1]
        rcases ih o with h2 | ⟨e, he, h2⟩
        · exact Or.inl h2
        · exact Or.inr ⟨e, by simp [he], h2⟩

theorem filterChainOldest_snd_of_empty (k : Int)
    (ch : List activeSeriesEntry) :
    ∀ o, (filterChainOldest k ch o).1 = [] →
      (filterChainOldest k ch o).2 = o := by
  induction ch with
  | nil => intro o _; rfl
  | cons e0 rest ih =>
    intro o hemp
    by_cases h : e0.nanos < k
    · rw [filterChainOldest_cons_drop h] at hemp ⊢
      exact ih o hemp
    · rw [filterChainOldest_cons_keep h] at hemp
      simp at hemp

theorem purgeRefs_nilrefs (k : Int) (a : Int) (m : List Int) (o : Int) :
    purgeRefs k [] a m o = ([], a, m, o) := rfl

theorem purgeRefs_nilchain (k : Int) (fp : Nat)
    (rest : List (Nat × List activeSeriesEntry)) (a : Int) (m : List Int)
    (o : Int) :
    purgeRefs k ((fp, []) :: rest) a m o = purgeRefs k rest a m o := by
  simp [purgeRefs, filterChainOldest]

theorem purgeRefs_single_drop {k : Int} {e : activeSeriesEntry}
    (h : e.nanos < k) (fp : Nat)
    (rest : List (Nat × List activeSeriesEntry)) (a : Int) (m : List Int)
    (o : Int) :
    purgeRefs k ((fp, [e]) :: rest) a m o = purgeRefs k rest a m o := by
  simp [purgeRefs, h]

theorem purgeRefs_single_keep {k : Int} {e : activeSeriesEntry}
    (h : ¬ e.nanos < k) (fp : Nat)
    (rest : List (Nat × List activeSeriesEntry)) (a : Int) (m : List Int)
    (o : Int) :
    purgeRefs k ((fp, [e]) :: rest) a m o =
      ((fp, [e]) :: (purgeRefs k rest (a + 1)
          (incrementMatches e.matchesVec m)
          (if e.nanos < o then e.nanos else o)).1,
        (purgeRefs k rest (a + 1) (incrementMatches e.matchesVec m)
          (if e.nanos < o then e.nanos else o)).2) := by
  simp [purgeRefs, h]

theorem purgeRefs_multi (k : Int) (fp : Nat) (e1 e2 : activeSeriesEntry)
    (es : List activeSeriesEntry)
    (rest : List (Nat × List activeSeriesEntry)) (a : Int) (m : List Int)
    (o : Int) :
    purgeRefs k ((fp, e1 :: e2 :: es) :: rest) a m o =
      (if (filterChainOldest k (e1 :: e2 :: es) o).1.isEmpty then
        purgeRefs k rest a m (filterChainOldest k (e1 :: e2 :: es) o).2
      else
        ((fp, (filterChainOldest k (e1 :: e2 :: es) o).1) ::
            (purgeRefs k rest
              (a + ((filterChainOldest k (e1 :: e2 :: es) o).1.length : Int))
              ((filterChainOldest k (e1 :: e2 :: es) o).1.foldl
                (fun acc e => incrementMatches e.matchesVec acc) m)
              (filterChainOldest k (e1 :: e2 :: es) o).2).1,
          (purgeRefs k rest
            (a + ((filterChainOldest k (e1 :: e2 :: es) o).1.length : Int))
            ((filterChainOldest k (e1 :: e2 :: es) o).1.foldl
              (fun acc e => incrementMatches e.matchesVec acc) m)
            (filterChainOldest k (e1 :: e2 :: es) o).2).2)) := rfl

theorem purgeRefsSpec_nil (k : Int) : purgeRefsSpec k [] = [] := rfl

theorem purgeRefsSpec_cons_none {k : Int} {ch : List activeSeriesEntry}
    (h : ch.filter (fun e => decide (k ≤ e.nanos)) = []) (fp : Nat)
    (rest : List (Nat × List activeSeriesEntry)) :
    purgeRefsSpec k ((fp, ch) :: rest) = purgeRefsSpec k rest :=
  List.filterMap_cons_none (by simp only [h]; rfl)

theorem purgeRefsSpec_cons_some {k : Int} {ch : List activeSeriesEntry}
    (h : ¬ ch.filter (fun e => decide (k ≤ e.nanos)) = []) (fp : Nat)
    (rest : List (Nat × List activeSeriesEntry)) :
    purgeRefsSpec k ((fp, ch) :: rest) =
      (fp, ch.filter (fun e => decide (k ≤ e.nanos))) ::
        purgeRefsSpec k rest :=
  List.filterMap_cons_some (by simp only [if_neg h])

theorem filter_keep_singleton {k : Int} {e : activeSeriesEntry}
    (h : ¬ e.nanos < k) :
    [e].filter (fun x => decide (k ≤ x.nanos)) = [e] := by
  simp [List.filter_cons, not_lt.mp h]

theorem filter_drop_singleton {k : Int} {e : activeSeriesEntry}
    (h : e.nanos < k) :
    [e].filter (fun x => decide (k ≤ x.nanos)) = [] := by
  simp [List.filter_cons, not_le.mpr h]

theorem purgeRefs_fst (k : Int)
    (refs : List (Nat × List activeSeriesEntry)) :
    ∀ (a : Int) (m : List Int) (o : Int),
      (purgeRefs k refs a m o).1 = purgeRefsSpec k refs := by
  induction refs with
  | nil => intro a m o; rfl
  | cons p rest ih =>
    obtain ⟨fp, entries⟩ := p
    intro a m o
    rcases entries with _ | ⟨e, _ | ⟨e2, es⟩⟩
    · rw [purgeRefs_nilchain, purgeRefsSpec_cons_none (by simp)]
      exact ih a m o
    · by_cases h : e.nanos < k
      · rw [purgeRefs_single_drop h,
          purgeRefsSpec_cons_none (filter_drop_singleton h)]
        exact ih a m o
      · rw [purgeRefs_single_keep h,
          purgeRefsSpec_cons_some (by rw [filter_keep_singleton h]; simp)]
        rw [filter_keep_singleton h]
        exact congrArg (List.cons _) (ih _ _ _)
    · by_cases hemp : (filterChainOldest k (e :: e2 :: es) o).1.isEmpty
      · have hfil : (e :: e2 :: es).filter
            (fun x => decide (k ≤ x.nanos)) = [] := by
          rw [← filterChainOldest_fst k (e :: e2 :: es) o]
          exact List.isEmpty_iff.mp hemp
        rw [purgeRefs_multi, if_pos hemp, purgeRefsSpec_cons_none hfil]
        exact ih a m _
      · have hfil : ¬ (e :: e2 :: es).filter
            (fun x => decide (k ≤ x.nanos)) = [] := by
          rw [← filterChainOldest_fst k (e :: e2 :: es) o]
          intro hc
          exact hemp (List.isEmpty_iff.mpr hc)
        rw [purgeRefs_multi, if_neg hemp, purgeRefsSpec_cons_some hfil]
        rw [← filterChainOldest_fst k (e :: e2 :: es) o]
        exact congrArg (List.cons _) (ih _ _ _)

theorem countMatch_cons_int (j : Nat) (e : activeSeriesEntry)
    (es : List activeSeriesEntry) :
    ((countMatch j (e :: es) : Nat) : Int) = (countMatch j es : Int) +
      (if e.matchesVec.getD j false then 1 else 0) := by
  rw [countMatch_cons]
  by_cases h : e.matchesVec.getD j false = true <;> simp [h]

theorem foldl_incrementMatches_length (es : List activeSeriesEntry) :
    ∀ m : List Int, (∀ e ∈ es, e.matchesVec.length ≤ m.length) →
      (es.foldl (fun acc e => incrementMatches e.matchesVec acc) m).length =
        m.length := by
  induction es with
  | nil => intro m _; rfl
  | cons e rest ih =>
    intro m h
    simp only [List.foldl_cons]
    have h1 : (incrementMatches e.matchesVec m).length = m.length :=
      incrementMatches_length (h e (by simp))
    rw [ih _ (fun e' he' => by rw [h1]; exact h e' (by simp [he']))]
    exact h1

theorem foldl_incrementMatches_getD (es : List activeSeriesEntry) :
    ∀ (m : List Int) (j : Nat),
      (∀ e ∈ es, e.matchesVec.length ≤ m.length) →
      (es.foldl (fun acc e => incrementMatches e.matchesVec acc) m).getD j 0 =
        m.getD j 0 + (countMatch j es : Int) := by
  induction es with
  | nil => intro m j _; simp [countMatch]
  | cons e rest ih =>
    intro m j h
    simp only [List.foldl_cons]
    have h1 : (incrementMatches e.matchesVec m).length = m.length :=
      incrementMatches_length (h e (by simp))
    rw [ih _ j (fun e' he' => by rw [h1]; exact h e' (by simp [he']))]
    rw [incrementMatches_getD (h e (by simp)) j]
    have h2 : ((countMatch j (e :: rest) : Nat) : Int) =
        (countMatch j rest : Int) +
          (if e.matchesVec.getD j false then 1 else 0) := by
      rw [countMatch_cons]
      by_cases hb : e.matchesVec.getD j false = true <;> simp [hb]
    rw [h2]
    ring

theorem purgeRefs_active (k : Int)
    (refs : List (Nat × List activeSeriesEntry)) :
    ∀ (a : Int) (m : List Int) (o : Int),
      (purgeRefs k refs a m o).2.1 =
        a + ((allEntries (purgeRefsSpec k refs)).length : Int) := by
  induction refs with
  | nil => intro a m o; simp [purgeRefs_nilrefs, purgeRefsSpec_nil, allEntries]
  | cons p rest ih =>
    obtain ⟨fp, entries⟩ := p
    intro a m o
    rcases entries with _ | ⟨e, _ | ⟨e2, es⟩⟩
    · rw [purgeRefs_nilchain, purgeRefsSpec_cons_none (by simp)]
      exact ih a m o
    · by_cases h : e.nanos < k
      · rw [purgeRefs_single_drop h,
          purgeRefsSpec_cons_none (filter_drop_singleton h)]
        exact ih a m o
      · rw [purgeRefs_single_keep h,
          purgeRefsSpec_cons_some (by rw [filter_keep_singleton h]; simp),
          filter_keep_singleton h]
        show (purgeRefs k rest (a + 1) (incrementMatches e.matchesVec m)
          (if e.nanos < o then e.nanos else o)).2.1 = _
        rw [ih]
        simp only [allEntries, List.length_append, List.length_cons,
          List.length_nil]
        push_cast
        ring
    · rw [purgeRefs_multi]
      by_cases hemp : (filterChainOldest k (e :: e2 :: es) o).1.isEmpty
      · have hfil : (e :: e2 :: es).filter
            (fun x => decide (k ≤ x.nanos)) = [] := by
          rw [← filterChainOldest_fst k (e :: e2 :: es) o]
          exact List.isEmpty_iff.mp hemp
        rw [if_pos hemp, purgeRefsSpec_cons_none hfil]
        exact ih a m _
      · have hfil : ¬ (e :: e2 :: es).filter
            (fun x => decide (k ≤ x.nanos)) = [] := by
          rw [← filterChainOldest_fst k (e :: e2 :: es) o]
          intro hc
          exact hemp (List.isEmpty_iff.mpr hc)
        rw [if_neg hemp, purgeRefsSpec_cons_some hfil]
        show (purgeRefs k rest _ _ _).2.1 = _
        rw [ih]
        simp only [allEntries, List.length_append]
        rw [← filterChainOldest_fst k (e :: e2 :: es) o]
        push_cast
        ring

theorem purgeRefs_matching_length (k : Int)
    (refs : List (Nat × List activeSeriesEntry)) :
    ∀ (a : Int) (m : List Int) (o : Int),
      (∀ e ∈ allEntries refs, e.matchesVec.length ≤ m.length) →
      (purgeRefs k refs a m o).2.2.1.length = m.length := by
  induction refs with
  | nil => intro a m o _; rfl
  | cons p rest ih =>
    obtain ⟨fp, entries⟩ := p
    intro a m o hlen
    have hlen_head : ∀ e ∈ entries, e.matchesVec.length ≤ m.length :=
      fun e he => hlen e (by simp [allEntries, he])
    have hlen_rest : ∀ e ∈ allEntries rest, e.matchesVec.length ≤ m.length :=
      fun e he => hlen e (by simp [allEntries, he])
    rcases entries with _ | ⟨e, _ | ⟨e2, es⟩⟩
    · rw [purgeRefs_nilchain]
      exact ih a m o hlen_rest
    · by_cases h : e.nanos < k
      · rw [purgeRefs_single_drop h]
        exact ih a m o hlen_rest
      · rw [purgeRefs_single_keep h]
        show (purgeRefs k rest (a + 1) (incrementMatches e.matchesVec m)
          (if e.nanos < o then e.nanos else o)).2.2.1.length = _
        have h1 : (incrementMatches e.matchesVec m).length = m.length :=
          incrementMatches_length (hlen_head e (by simp))
        rw [ih _ _ _ (fun e' he' => by rw [h1]; exact hlen_rest e' he')]
        exact h1
    · rw [purgeRefs_multi]
      by_cases hemp : (filterChainOldest k (e :: e2 :: es) o).1.isEmpty
      · rw [if_pos hemp]
        exact ih a m _ hlen_rest
      · rw [if_neg hemp]
        show (purgeRefs k rest _ _ _).2.2.1.length = _
        have hsub : ∀ e' ∈ (filterChainOldest k (e :: e2 :: es) o).1,
            e'.matchesVec.length ≤ m.length := by
          intro e' he'
          rw [filterChainOldest_fst] at he'
          exact hlen_head e' (List.mem_filter.mp he').1
        have h1 : ((filterChainOldest k (e :: e2 :: es) o).1.foldl
            (fun acc e => incrementMatches e.matchesVec acc) m).length =
              m.length :=
          foldl_incrementMatches_length _ m hsub
        rw [ih _ _ _ (fun e' he' => by rw [h1]; exact hlen_rest e' he')]
        exact h1

theorem purgeRefs_matching_getD (k : Int)
    (refs : List (Nat × List activeSeriesEntry)) :
    ∀ (a : Int) (m : List Int) (o : Int) (j : Nat),
      (∀ e ∈ allEntries refs, e.matchesVec.length ≤ m.length) →
      (purgeRefs k refs a m o).2.2.1.getD j 0 =
        m.getD j 0 + (countMatch j (allEntries (purgeRefsSpec k refs)) : Int) := by
  induction refs with
  | nil => intro a m o j _; simp [purgeRefs_nilrefs, purgeRefsSpec_nil,
      allEntries, countMatch]
  | cons p rest ih =>
    obtain ⟨fp, entries⟩ := p
    intro a m o j hlen
    have hlen_head : ∀ e ∈ entries, e.matchesVec.length ≤ m.length :=
      fun e he => hlen e (by simp [allEntries, he])
    have hlen_rest : ∀ e ∈ allEntries rest, e.matchesVec.length ≤ m.length :=
      fun e he => hlen e (by simp [allEntries, he])
    rcases entries with _ | ⟨e, _ | ⟨e2, es⟩⟩
    · rw [purgeRefs_nilchain, purgeRefsSpec_cons_none (by simp)]
      exact ih a m o j hlen_rest
    · by_cases h : e.nanos < k
      · rw [purgeRefs_single_drop h,
          purgeRefsSpec_cons_none (filter_drop_singleton h)]
        exact ih a m o j hlen_rest
      · rw [purgeRefs_single_keep h,
          purgeRefsSpec_cons_some (by rw [filter_keep_singleton h]; simp),
          filter_keep_singleton h]
        show (purgeRefs k rest (a + 1) (incrementMatches e.matchesVec m)
          (if e.nanos < o then e.nanos else o)).2.2.1.getD j 0 = _
        have h1 : (incrementMatches e.matchesVec m).length = m.length :=
          incrementMatches_length (hlen_head e (by simp))
        rw [ih _ _ _ j (fun e' he' => by rw [h1]; exact hlen_rest e' he')]
        rw [incrementMatches_getD (hlen_head e (by simp)) j]
        have h2 : allEntries ((fp, [e]) :: purgeRefsSpec k rest) =
            e :: allEntries (purgeRefsSpec k rest) := by
          simp [allEntries]
        rw [h2, countMatch_cons]
        by_cases hb : e.matchesVec.getD j false = true <;>
          simp [hb] <;> push_cast <;> ring
    · rw [purgeRefs_multi]
      by_cases hemp : (filterChainOldest k (e :: e2 :: es) o).1.isEmpty
      · have hfil : (e :: e2 :: es).filter
            (fun x => decide (k ≤ x.nanos)) = [] := by
          rw [← filterChainOldest_fst k (e :: e2 :: es) o]
          exact List.isEmpty_iff.mp hemp
        rw [if_pos hemp, purgeRefsSpec_cons_none hfil]
        exact ih a m _ j hlen_rest
      · have hfil : ¬ (e :: e2 :: es).filter
            (fun x => decide (k ≤ x.nanos)) = [] := by
          rw [← filterChainOldest_fst k (e :: e2 :: es) o]
          intro hc
          exact hemp (List.isEmpty_iff.mpr hc)
        rw [if_neg hemp, purgeRefsSpec_cons_some hfil]
        show (purgeRefs k rest _ _ _).2.2.1.getD j 0 = _
        have hsub : ∀ e' ∈ (filterChainOldest k (e :: e2 :: es) o).1,
            e'.matchesVec.length ≤ m.length := by
          intro e' he'
          rw [filterChainOldest_fst] at he'
          exact hlen_head e' (List.mem_filter.mp he').1
        have h1 : ((filterChainOldest k (e :: e2 :: es) o).1.foldl
            (fun acc e => incrementMatches e.matchesVec acc) m).length =
              m.length :=
          foldl_incrementMatches_length _ m hsub
        rw [ih _ _ _ j (fun e' he' => by rw [h1]; exact hlen_rest e' he')]
        rw [foldl_incrementMatches_getD _ m j hsub]
        have h2 : allEntries ((fp, (e :: e2 :: es).filter
            (fun x => decide (k ≤ x.nanos))) :: purgeRefsSpec k rest) =
            (e :: e2 :: es).filter (fun x => decide (k ≤ x.nanos)) ++
              allEntries (purgeRefsSpec k rest) := by
          simp [allEntries]
        rw [h2, countMatch_append]
        rw [← filterChainOldest_fst k (e :: e2 :: es) o]
        push_cast
        ring

theorem purgeRefs_oldest_le (k : Int)
    (refs : List (Nat × List activeSeriesEntry)) :
    ∀ (a : Int) (m : List Int) (o : Int),
      (purgeRefs k refs a m o).2.2.2 ≤ o := by
  induction refs with
  | nil => intro a m o; exact le_refl o
  | cons p rest ih =>
    obtain ⟨fp, entries⟩ := p
    intro a m o
    rcases entries with _ | ⟨e, _ | ⟨e2, es⟩⟩
    · rw [purgeRefs_nilchain]; exact ih a m o
    · by_cases h : e.nanos < k
      · rw [purgeRefs_single_drop h]; exact ih a m o
      · rw [purgeRefs_single_keep h]
        exact le_trans (ih _ _ _) minIf_le_right
    · rw [purgeRefs_multi]
      by_cases hemp : (filterChainOldest k (e :: e2 :: es) o).1.isEmpty
      · rw [if_pos hemp]
        exact le_trans (ih _ _ _) (filterChainOldest_snd_le k _ o)
      · rw [if_neg hemp]
        exact le_trans (ih _ _ _) (filterChainOldest_snd_le k _ o)

theorem purgeRefs_oldest_lb (k : Int)
    (refs : List (Nat × List activeSeriesEntry)) :
    ∀ (a : Int) (m : List Int) (o : Int),
      ∀ e ∈ allEntries (purgeRefs k refs a m o).1,
        (purgeRefs k refs a m o).2.2.2 ≤ e.nanos := by
  induction refs with
  | nil => intro a m o e he; simp [purgeRefs_nilrefs, allEntries] at he
  | cons p rest ih =>
    obtain ⟨fp, entries⟩ := p
    intro a m o e' he'
    rcases entries with _ | ⟨e, _ | ⟨e2, es⟩⟩
    · rw [purgeRefs_nilchain] at he' ⊢; exact ih a m o e' he'
    · by_cases h : e.nanos < k
      · rw [purgeRefs_single_drop h] at he' ⊢; exact ih a m o e' he'
      · rw [purgeRefs_single_keep h] at he' ⊢
        simp only [allEntries, List.cons_append, List.nil_append,
          List.mem_cons] at he'
        rcases he' with he' | he'
        · subst he'
          exact le_trans (purgeRefs_oldest_le k rest _ _ _) minIf_le_left
        · exact ih _ _ _ e' he'
    · rw [purgeRefs_multi] at he' ⊢
      by_cases hemp : (filterChainOldest k (e :: e2 :: es) o).1.isEmpty
      · rw [if_pos hemp] at he' ⊢; exact ih _ _ _ e' he'
      · rw [if_neg hemp] at he' ⊢
        simp only [allEntries, List.mem_append] at he'
        rcases he' with he' | he'
        · exact le_trans (purgeRefs_oldest_le k rest _ _ _)
            (filterChainOldest_snd_lb k _ o e' he')
        · exact ih _ _ _ e' he'

theorem purgeRefs_oldest_attained (k : Int)
    (refs : List (Nat × List activeSeriesEntry)) :
    ∀ (a : Int) (m : List Int) (o : Int),
      (purgeRefs k refs a m o).2.2.2 = o ∨
        ∃ e ∈ allEntries (purgeRefs k refs a m o).1,
          (purgeRefs k refs a m o).2.2.2 = e.nanos := by
  induction refs with
  | nil => intro a m o; exact Or.inl rfl
  | cons p rest ih =>
    obtain ⟨fp, entries⟩ := p
    intro a m o
    rcases entries with _ | ⟨e, _ | ⟨e2, es⟩⟩
    · rw [purgeRefs_nilchain]; exact ih a m o
    · by_cases h : e.nanos < k
      · rw [purgeRefs_single_drop h]; exact ih a m o
      · rw [purgeRefs_single_keep h]
        by_cases h1 : e.nanos < o
        · rw [if_pos h1]
          rcases ih (a + 1) (incrementMatches e.matchesVec m) e.nanos with
            h2 | ⟨e', he', h2⟩
          · exact Or.inr ⟨e, by simp [allEntries], h2⟩
          · exact Or.inr ⟨e', by simp [allEntries, he'], h2⟩
        · rw [if_neg h1]
          rcases ih (a + 1) (incrementMatches e.matchesVec m) o with
            h2 | ⟨e', he', h2⟩
          · exact Or.inl h2
          · exact Or.inr ⟨e', by simp [allEntries, he'], h2⟩
    · rw [purgeRefs_multi]
      by_cases hemp : (filterChainOldest k (e :: e2 :: es) o).1.isEmpty
      · rw [if_pos hemp]
        have hf2 : (filterChainOldest k (e :: e2 :: es) o).2 = o :=
          filterChainOldest_snd_of_empty k _ o (List.isEmpty_iff.mp hemp)
        rw [hf2]
        exact ih a m o
      · rw [if_neg hemp]
        rcases ih (a + ((filterChainOldest k (e :: e2 :: es) o).1.length : Int))
            ((filterChainOldest k (e :: e2 :: es) o).1.foldl
              (fun acc e => incrementMatches e.matchesVec acc) m)
            (filterChainOldest k (e :: e2 :: es) o).2 with h2 | ⟨e', he', h2⟩
        · rcases filterChainOldest_snd_attained k (e :: e2 :: es) o with
            h3 | ⟨e', he', h3⟩
          · exact Or.inl (h2.trans h3)
          · exact Or.inr ⟨e', by simp [allEntries, he'], h2.trans h3⟩
        · exact Or.inr ⟨e', by simp [allEntries, he'], h2⟩

theorem purgeRefs_oldest_of_empty (k : Int)
    (refs : List (Nat × List activeSeriesEntry)) :
    ∀ (a : Int) (m : List Int) (o : Int),
      allEntries (purgeRefs k refs a m o).1 = [] →
        (purgeRefs k refs a m o).2.2.2 = o := by
  induction refs with
  | nil => intro a m o _; rfl
  | cons p rest ih =>
    obtain ⟨fp, entries⟩ := p
    intro a m o hemp2
    rcases entries with _ | ⟨e, _ | ⟨e2, es⟩⟩
    · rw [purgeRefs_nilchain] at hemp2 ⊢; exact ih a m o hemp2
    · by_cases h : e.nanos < k
      · rw [purgeRefs_single_drop h] at hemp2 ⊢; exact ih a m o hemp2
      · rw [purgeRefs_single_keep h] at hemp2
        simp [allEntries] at hemp2
    · rw [purgeRefs_multi] at hemp2 ⊢
      by_cases hemp : (filterChainOldest k (e :: e2 :: es) o).1.isEmpty
      · rw [if_pos hemp] at hemp2 ⊢
        have hf2 : (filterChainOldest k (e :: e2 :: es) o).2 = o :=
          filterChainOldest_snd_of_empty k _ o (List.isEmpty_iff.mp hemp)
        rw [ih _ _ _ hemp2, hf2]
      · rw [if_neg hemp] at hemp2
        simp only [allEntries, List.append_eq_nil] at hemp2
        exact absurd (List.isEmpty_iff.mpr hemp2.1) hemp

theorem mem_allEntries_purgeRefsSpec {k : Int}
    {refs : List (Nat × List activeSeriesEntry)} {e : activeSeriesEntry}
    (h : e ∈ allEntries (purgeRefsSpec k refs)) :
    e ∈ allEntries refs ∧ k ≤ e.nanos := by
  induction refs with
  | nil => simp [purgeRefsSpec_nil, allEntries] at h
  | cons p rest ih =>
    obtain ⟨fp, ch⟩ := p
    by_cases hch : ch.filter (fun x => decide (k ≤ x.nanos)) = []
    · rw [purgeRefsSpec_cons_none hch] at h
      rcases ih h with ⟨h1, h2⟩
      exact ⟨by simp [allEntries, h1], h2⟩
    · rw [purgeRefsSpec_cons_some hch] at h
      simp only [allEntries, List.mem_append] at h
      rcases h with h | h
      · rcases List.mem_filter.mp h with ⟨h1, h2⟩
        exact ⟨by simp [allEntries, h1], by simpa using h2⟩
      · rcases ih h with ⟨h1, h2⟩
        exact ⟨by simp [allEntries, h1], h2⟩

theorem purgeRefsSpec_eq_self {k : Int}
    {refs : List (Nat × List activeSeriesEntry)}
    (hkeep : ∀ e ∈ allEntries refs, k ≤ e.nanos)
    (hne : ∀ p ∈ refs, p.2 ≠ []) :
    purgeRefsSpec k refs = refs := by
  induction refs with
  | nil => rfl
  | cons p rest ih =>
    obtain ⟨fp, ch⟩ := p
    have hfil : ch.filter (fun x => decide (k ≤ x.nanos)) = ch :=
      List.filter_eq_self.mpr (fun e he => by
        simp only [decide_eq_true_eq]
        exact hkeep e (by simp [allEntries, he]))
    have hch : ¬ ch.filter (fun x => decide (k ≤ x.nanos)) = [] := by
      rw [hfil]
      exact hne (fp, ch) (by simp)
    rw [purgeRefsSpec_cons_some hch, hfil]
    rw [ih (fun e he => hkeep e (by simp [allEntries, he]))
      (fun p hp => hne p (by simp [hp]))]

namespace activeSeriesStripe

theorem purge_of_fast {s : activeSeriesStripe} {k : Int}
    (h : s.oldestEntryTs > 0 ∧ k ≤ s.oldestEntryTs) : s.purge k = s := by
  simp [activeSeriesStripe.purge, h]

theorem purge_slow_eq {s : activeSeriesStripe} {k : Int}
    (h : ¬(s.oldestEntryTs > 0 ∧ k ≤ s.oldestEntryTs)) :
    s.purge k =
      { s with
          refs := (purgeRefs k s.refs 0
            (List.replicate s.activeMatching.elems.length 0) maxInt64).1
          active := (purgeRefs k s.refs 0
            (List.replicate s.activeMatching.elems.length 0) maxInt64).2.1
          activeMatching :=
            { cap := (resizeAndClear s.activeMatching.elems.length
                s.activeMatching).cap
              elems := (purgeRefs k s.refs 0
                (List.replicate s.activeMatching.elems.length 0)
                maxInt64).2.2.1 }
          oldestEntryTs :=
            if (purgeRefs k s.refs 0
                (List.replicate s.activeMatching.elems.length 0)
                maxInt64).2.2.2 = maxInt64 then 0
            else (purgeRefs k s.refs 0
              (List.replicate s.activeMatching.elems.length 0)
              maxInt64).2.2.2 } := by
  simp only [activeSeriesStripe.purge, if_neg h, resizeAndClear_elems]

theorem hint_positive_lb {s : activeSeriesStripe}
    (hI3 : OldestHintInv s) (hpos : s.oldestEntryTs > 0) :
    ∀ e ∈ allEntries s.refs, s.oldestEntryTs ≤ e.nanos := by
  rcases hI3 with h0 | hlb
  · rw [h0] at hpos
    exact absurd hpos (lt_irrefl 0)
  · exact hlb

theorem purge_refs_eq_spec {s : activeSeriesStripe} {k : Int}
    (hI3 : OldestHintInv s) (hI4 : ChainsNonemptyInv s) :
    (s.purge k).refs = purgeRefsSpec k s.refs := by
  by_cases h : s.oldestEntryTs > 0 ∧ k ≤ s.oldestEntryTs
  · rw [purge_of_fast h]
    have hkeep : ∀ e ∈ allEntries s.refs, k ≤ e.nanos := fun e he =>
      le_trans h.2 (hint_positive_lb hI3 h.1 e he)
    rw [purgeRefsSpec_eq_self hkeep hI4]
  · rw [purge_slow_eq h]
    exact purgeRefs_fst k s.refs 0 _ maxInt64

theorem purge_active_inv (s : activeSeriesStripe) (k : Int)
    (hI1 : ActiveCountInv s) : ActiveCountInv (s.purge k) := by
  by_cases h : s.oldestEntryTs > 0 ∧ k ≤ s.oldestEntryTs
  · rw [purge_of_fast h]; exact hI1
  · rw [purge_slow_eq h]
    show (purgeRefs k s.refs 0 _ maxInt64).2.1 =
      ((allEntries (purgeRefs k s.refs 0 _ maxInt64).1).length : Int)
    rw [purgeRefs_active, purgeRefs_fst]
    ring

theorem purge_matching_inv (s : activeSeriesStripe) (k : Int)
    (hI2 : MatchingCountInv s) (hI6 : MatchesLenInv s) :
    MatchingCountInv (s.purge k) := by
  by_cases h : s.oldestEntryTs > 0 ∧ k ≤ s.oldestEntryTs
  · rw [purge_of_fast h]; exact hI2
  · rw [purge_slow_eq h]
    intro j hj
    show (purgeRefs k s.refs 0
      (List.replicate s.activeMatching.elems.length 0) maxInt64).2.2.1.getD j 0 =
      (countMatch j (allEntries (purgeRefs k s.refs 0
        (List.replicate s.activeMatching.elems.length 0) maxInt64).1) : Int)
    have hlen : ∀ e ∈ allEntries s.refs, e.matchesVec.length ≤
        (List.replicate s.activeMatching.elems.length (0 : Int)).length := by
      intro e he
      rw [List.length_replicate]
      exact le_of_eq (hI6 e he)
    rw [purgeRefs_matching_getD k s.refs 0 _ maxInt64 j hlen,
      purgeRefs_fst, getD_replicate_zero]
    ring

theorem purge_matches_len_inv (s : activeSeriesStripe) (k : Int)
    (hI6 : MatchesLenInv s) : MatchesLenInv (s.purge k) := by
  by_cases h : s.oldestEntryTs > 0 ∧ k ≤ s.oldestEntryTs
  · rw [purge_of_fast h]; exact hI6
  · rw [purge_slow_eq h]
    intro e he
    show e.matchesVec.length = (purgeRefs k s.refs 0
      (List.replicate s.activeMatching.elems.length 0) maxInt64).2.2.1.length
    have hlen : ∀ e ∈ allEntries s.refs, e.matchesVec.length ≤
        (List.replicate s.activeMatching.elems.length (0 : Int)).length := by
      intro e he
      rw [List.length_replicate]
      exact le_of_eq (hI6 e he)
    rw [purgeRefs_matching_length k s.refs 0 _ maxInt64 hlen,
      List.length_replicate]
    have he2 : e ∈ allEntries s.refs := by
      have := he
      rw [show (({ s with
          refs := (purgeRefs k s.refs 0
            (List.replicate s.activeMatching.elems.length 0) maxInt64).1
          active := (purgeRefs k s.refs 0
            (List.replicate s.activeMatching.elems.length 0) maxInt64).2.1
          activeMatching :=
            { cap := (resizeAndClear s.activeMatching.elems.length
                s.activeMatching).cap
              elems := (purgeRefs k s.refs 0
                (List.replicate s.activeMatching.elems.length 0)
                maxInt64).2.2.1 }
          oldestEntryTs :=
            if (purgeRefs k s.refs 0
                (List.replicate s.activeMatching.elems.length 0)
                maxInt64).2.2.2 = maxInt64 then 0
            else (purgeRefs k s.refs 0
              (List.replicate s.activeMatching.elems.length 0)
              maxInt64).2.2.2 } : activeSeriesStripe).refs =
          (purgeRefs k s.refs 0
            (List.replicate s.activeMatching.elems.length 0) maxInt64).1)
        from rfl, purgeRefs_fst] at this
      exact (mem_allEntries_purgeRefsSpec this).1
    exact hI6 e he2

theorem purge_hint_inv (s : activeSeriesStripe) (k : Int)
    (hI3 : OldestHintInv s) : OldestHintInv (s.purge k) := by
  by_cases h : s.oldestEntryTs > 0 ∧ k ≤ s.oldestEntryTs
  · rw [purge_of_fast h]; exact hI3
  · rw [purge_slow_eq h]
    by_cases hmax : (purgeRefs k s.refs 0
        (List.replicate s.activeMatching.elems.length 0)
        maxInt64).2.2.2 = maxInt64
    · left
      show (if _ = maxInt64 then (0 : Int) else _) = 0
      rw [if_pos hmax]
    · right
      intro e he
      show (if _ = maxInt64 then (0 : Int) else _) ≤ e.nanos
      rw [if_neg hmax]
      exact purgeRefs_oldest_lb k s.refs 0 _ maxInt64 e he

end activeSeriesStripe

theorem prop_if_hint {P : activeSeriesStripe → Prop} {s1 : activeSeriesStripe}
    {c : Prop} [Decidable c] (h1 : P { s1 with oldestEntryTs := 0 })
    (h2 : P s1) :
    P (if c then { s1 with oldestEntryTs := 0 } else s1) := by
  by_cases hc : c
  · rwa [if_pos hc]
  · rwa [if_neg hc]

namespace activeSeriesStripe

theorem update_active_inv (s : activeSeriesStripe) (t : Int) (l : Labels)
    (fp : Nat) (hI1 : ActiveCountInv s) :
    ActiveCountInv (s.updateSeriesTimestamp t l fp) := by
  cases hfind : findInChain (mapGet s.refs fp) l with
  | none =>
    rw [updateSeriesTimestamp_of_miss t hfind]
    show ActiveCountInv (if _ then _ else _)
    have hperm := allEntries_mapSet_append_perm s.refs fp
      ⟨l, t, s.matchers.Matches l⟩
    have key : s.active + 1 =
        ((allEntries (mapSet s.refs fp (mapGet s.refs fp ++
          [⟨l, t, s.matchers.Matches l⟩]))).length : Int) := by
      rw [hperm.length_eq]
      simp only [List.length_append, List.length_cons, List.length_nil]
      rw [hI1]
      push_cast
      ring
    exact prop_if_hint key key
  | some prev =>
    by_cases ht : prev < t
    · rw [updateSeriesTimestamp_of_hit_advance t hfind ht]
      show ActiveCountInv (if _ then _ else _)
      have key : s.active =
          ((allEntries (setNanos s.refs fp l t)).length : Int) := by
        rw [length_allEntries_setNanos]
        exact hI1
      exact prop_if_hint key key
    · rw [updateSeriesTimestamp_of_hit_noadvance t hfind ht]
      exact hI1

theorem update_matching_inv (s : activeSeriesStripe) (t : Int) (l : Labels)
    (fp : Nat) (hI2 : MatchingCountInv s)
    (hml : (s.matchers.Matches l).length = s.activeMatching.elems.length) :
    MatchingCountInv (s.updateSeriesTimestamp t l fp) := by
  cases hfind : findInChain (mapGet s.refs fp) l with
  | none =>
    rw [updateSeriesTimestamp_of_miss t hfind]
    show MatchingCountInv (if _ then _ else _)
    have hperm := allEntries_mapSet_append_perm s.refs fp
      ⟨l, t, s.matchers.Matches l⟩
    have key : MatchingCountInv
        { s with
            active := s.active + 1
            activeMatching :=
              { s.activeMatching with
                  elems := incrementMatches (s.matchers.Matches l)
                    s.activeMatching.elems }
            refs := mapSet s.refs fp (mapGet s.refs fp ++
              [⟨l, t, s.matchers.Matches l⟩]) } := by
      intro j hj
      show (incrementMatches (s.matchers.Matches l)
        s.activeMatching.elems).getD j 0 = _
      rw [incrementMatches_getD (le_of_eq hml) j]
      rw [countMatch_perm j hperm, countMatch_append]
      have hlen : (incrementMatches (s.matchers.Matches l)
          s.activeMatching.elems).length = s.activeMatching.elems.length :=
        incrementMatches_length (le_of_eq hml)
      rw [hlen] at hj
      rw [hI2 j hj]
      have hone : (countMatch j
          [activeSeriesEntry.mk l t (s.matchers.Matches l)] : Int) =
          if (s.matchers.Matches l).getD j false then 1 else 0 := by
        by_cases hb : (s.matchers.Matches l).getD j false = true <;>
          simp [countMatch, List.countP_cons, hb]
      push_cast
      rw [hone]
    exact prop_if_hint key key
  | some prev =>
    by_cases ht : prev < t
    · rw [updateSeriesTimestamp_of_hit_advance t hfind ht]
      show MatchingCountInv (if _ then _ else _)
      have key : MatchingCountInv { s with refs := setNanos s.refs fp l t } := by
        intro j hj
        show s.activeMatching.elems.getD j 0 = _
        rw [countMatch_congr j (allEntries_setNanos_map_matchesVec s.refs fp l t)]
        exact hI2 j hj
      exact prop_if_hint key key
    · rw [updateSeriesTimestamp_of_hit_noadvance t hfind ht]
      exact hI2

theorem update_matches_len_inv (s : activeSeriesStripe) (t : Int) (l : Labels)
    (fp : Nat) (hI6 : MatchesLenInv s)
    (hml : (s.matchers.Matches l).length = s.activeMatching.elems.length) :
    MatchesLenInv (s.updateSeriesTimestamp t l fp) := by
  cases hfind : findInChain (mapGet s.refs fp) l with
  | none =>
    rw [updateSeriesTimestamp_of_miss t hfind]
    show MatchesLenInv (if _ then _ else _)
    have hperm := allEntries_mapSet_append_perm s.refs fp
      ⟨l, t, s.matchers.Matches l⟩
    have key : MatchesLenInv
        { s with
            active := s.active + 1
            activeMatching :=
              { s.activeMatching with
                  elems := incrementMatches (s.matchers.Matches l)
                    s.activeMatching.elems }
            refs := mapSet s.refs fp (mapGet s.refs fp ++
              [⟨l, t, s.matchers.Matches l⟩]) } := by
      intro e he
      show e.matchesVec.length = (incrementMatches (s.matchers.Matches l)
        s.activeMatching.elems).length
      rw [incrementMatches_length (le_of_eq hml)]
      have he2 := hperm.mem_iff.mp he
      simp only [List.mem_append, List.mem_cons, List.not_mem_nil,
        or_false] at he2
      rcases he2 with he2 | he2
      · exact hI6 e he2
      · rw [he2]
        exact hml
    exact prop_if_hint key key
  | some prev =>
    by_cases ht : prev < t
    · rw [updateSeriesTimestamp_of_hit_advance t hfind ht]
      show MatchesLenInv (if _ then _ else _)
      have key : MatchesLenInv { s with refs := setNanos s.refs fp l t } := by
        intro e he
        show e.matchesVec.length = s.activeMatching.elems.length
        have he' : e ∈ allEntries (setNanos s.refs fp l t) := he
        have hmem : e.matchesVec ∈
            (allEntries (setNanos s.refs fp l t)).map (·.matchesVec) :=
          List.mem_map_of_mem (·.matchesVec) he'
        rw [allEntries_setNanos_map_matchesVec] at hmem
        rcases List.mem_map.mp hmem with ⟨e0, he0, heq⟩
        rw [← heq]
        exact hI6 e0 he0
      exact prop_if_hint key key
    · rw [updateSeriesTimestamp_of_hit_noadvance t hfind ht]
      exact hI6

theorem update_hint_inv (s : activeSeriesStripe) (t : Int) (l : Labels)
    (fp : Nat) (hI3 : OldestHintInv s) :
    OldestHintInv (s.updateSeriesTimestamp t l fp) := by
  cases hfind : findInChain (mapGet s.refs fp) l with
  | none =>
    rw [updateSeriesTimestamp_of_miss t hfind]
    show OldestHintInv (if _ then _ else _)
    by_cases h1 : t < s.oldestEntryTs
    · rw [if_pos h1]
      exact Or.inl rfl
    · rw [if_neg h1]
      rcases hI3 with h0 | hlb
      · exact Or.inl h0
      · right
        intro e he
        show s.oldestEntryTs ≤ e.nanos
        rcases mem_allEntries_mapSet he with h2 | h2
        · rcases List.mem_append.mp h2 with h3 | h3
          · exact hlb e (mem_allEntries_of_mem_mapGet h3)
          · rcases List.mem_singleton.mp h3 with rfl
            exact le_of_not_lt h1
        · exact hlb e h2
  | some prev =>
    by_cases ht : prev < t
    · rw [updateSeriesTimestamp_of_hit_advance t hfind ht]
      show OldestHintInv (if _ then _ else _)
      by_cases h1 : t < s.oldestEntryTs
      · rw [if_pos h1]
        exact Or.inl rfl
      · rw [if_neg h1]
        rcases hI3 with h0 | hlb
        · exact Or.inl h0
        · right
          intro e he
          show s.oldestEntryTs ≤ e.nanos
          rcases mem_allEntries_setNanos he with h2 | h2
          · rw [h2]
            exact le_of_not_lt h1
          · exact hlb e h2
    · rw [updateSeriesTimestamp_of_hit_noadvance t hfind ht]
      exact hI3

theorem reinit_hint_inv (s : activeSeriesStripe) (asm : Matchers) :
    OldestHintInv (s.reinit asm) :=
  Or.inl rfl

end activeSeriesStripe

/-- C2: for every stripe state satisfying the documented invariants I3
(the oldest hint is 0 or a lower bound on all stored timestamps) and I4
(every fingerprint key maps to a non-empty chain), and every cutoff,
purge leaves exactly the entries whose `last_update_ns` is greater than
or equal to the cutoff — an entry at exactly the cutoff is kept, every
strictly older entry is removed — in singleton chains and collision
chains alike, and a fingerprint key is deleted exactly when its filtered
chain becomes empty: the resulting map equals the declarative
`purgeRefsSpec` filter. -/
theorem claim_C2_purge_removes_exactly_older (s : activeSeriesStripe)
    (k : Int) (hI3 : OldestHintInv s) (hI4 : ChainsNonemptyInv s) :
    (s.purge k).refs = purgeRefsSpec k s.refs :=
  activeSeriesStripe.purge_refs_eq_spec hI3 hI4

theorem claim_C2_witness :
    OldestHintInv stripeCollide ∧ ChainsNonemptyInv stripeCollide ∧
      (stripeCollide.purge 5).refs = purgeRefsSpec 5 stripeCollide.refs ∧
      (stripeCollide.purge 5).refs = [(7, [entryA5, entryB9])] :=
  ⟨by decide, by decide,
    claim_C2_purge_removes_exactly_older stripeCollide 5 (by decide)
      (by decide),
    by decide⟩

/-- C9: `resizeAndClear(len, prev)` always returns a vector of length
`len` whose elements are all zero; when `prev` has capacity at least
`len` it reslices and zeroes `prev` in place (the capacity — the backing
array — is preserved, no allocation); otherwise it allocates a fresh
vector of capacity `2*len`; and `len = 0` yields the empty vector. -/
theorem claim_C9_resizeAndClear_contract (l : Nat) (prev : GoIntSlice) :
    (resizeAndClear l prev).elems = List.replicate l 0 ∧
    (resizeAndClear l prev).elems.length = l ∧
    (l ≤ prev.cap →
      resizeAndClear l prev = { prev with elems := List.replicate l 0 }) ∧
    (prev.cap < l → (resizeAndClear l prev).cap = l * 2) ∧
    (l = 0 → (resizeAndClear l prev).elems = []) := by
  refine ⟨resizeAndClear_elems l prev, ?len, ?inplace, ?alloc, ?zero⟩
  · rw [resizeAndClear_elems]
    exact List.length_replicate l 0
  · intro h
    unfold resizeAndClear
    rw [if_neg (not_lt.mpr h)]
  · intro h
    unfold resizeAndClear
    rw [if_pos h, if_neg (by omega)]
  · intro h
    subst h
    rw [resizeAndClear_elems]
    rfl

theorem claim_C9_witness :
    (resizeAndClear 3 ⟨5, [1, 2]⟩).elems = List.replicate 3 0 ∧
    resizeAndClear 3 ⟨5, [1, 2]⟩ =
      { cap := 5, elems := List.replicate 3 0 } ∧
    (resizeAndClear 3 ⟨2, [1, 2]⟩).cap = 3 * 2 ∧
    (resizeAndClear 0 ⟨2, [1, 2]⟩).elems = [] :=
  ⟨(claim_C9_resizeAndClear_contract 3 ⟨5, [1, 2]⟩).1,
    (claim_C9_resizeAndClear_contract 3 ⟨5, [1, 2]⟩).2.2.1 (by decide),
    (claim_C9_resizeAndClear_contract 3 ⟨2, [1, 2]⟩).2.2.2.1 (by decide),
    (claim_C9_resizeAndClear_contract 0 ⟨2, [1, 2]⟩).2.2.2.2 rfl⟩

/-- C10 counterexample: on the slow path, a stripe whose only entry
carries the timestamp `maxInt64` keeps that entry through purge, yet the
committed `oldestEntryTs` is 0 — not the minimum surviving timestamp —
because the survivor collides with the running-minimum sentinel
`math.MaxInt64`. -/
theorem claim_C10_counterexample :
    (stripeMax.purge 0).refs = [(0, [entryMax])] ∧
    (stripeMax.purge 0).oldestEntryTs = 0 ∧
    entryMax.nanos ≠ 0 := by
  refine ⟨by decide, by decide, by decide⟩

/-- C10 (amended): after a purge that takes the slow path, provided every
stored timestamp is strictly below `math.MaxInt64` (so no entry collides
with the sentinel), the committed hint is exact: it is 0 when no entry
survives, and equals the minimum surviving `last_update_ns` (attained
and a lower bound) when at least one entry survives. -/
theorem claim_C10_amended_oldest_exact (s : activeSeriesStripe) (k : Int)
    (hslow : ¬(s.oldestEntryTs > 0 ∧ k ≤ s.oldestEntryTs))
    (hbound : ∀ e ∈ allEntries s.refs, e.nanos < maxInt64) :
    (allEntries (s.purge k).refs = [] → (s.purge k).oldestEntryTs = 0) ∧
    (allEntries (s.purge k).refs ≠ [] →
      (∃ e ∈ allEntries (s.purge k).refs,
        (s.purge k).oldestEntryTs = e.nanos) ∧
      ∀ e ∈ allEntries (s.purge k).refs,
        (s.purge k).oldestEntryTs ≤ e.nanos) := by
  rw [activeSeriesStripe.purge_slow_eq hslow]
  constructor
  · intro hemp
    have hemp2 : allEntries (purgeRefs k s.refs 0
        (List.replicate s.activeMatching.elems.length 0) maxInt64).1 = [] :=
      hemp
    show (if _ = maxInt64 then (0 : Int) else _) = 0
    rw [if_pos (purgeRefs_oldest_of_empty k s.refs 0 _ maxInt64 hemp2)]
  · intro hne
    have hne2 : allEntries (purgeRefs k s.refs 0
        (List.replicate s.activeMatching.elems.length 0) maxInt64).1 ≠ [] :=
      hne
    rcases List.exists_mem_of_ne_nil _ hne2 with ⟨e0, he0⟩
    have he0s : e0 ∈ allEntries s.refs := by
      have h1 := he0
      rw [purgeRefs_fst] at h1
      exact (mem_allEntries_purgeRefsSpec h1).1
    have hlt : (purgeRefs k s.refs 0
        (List.replicate s.activeMatching.elems.length 0)
        maxInt64).2.2.2 < maxInt64 :=
      lt_of_le_of_lt (purgeRefs_oldest_lb k s.refs 0 _ maxInt64 e0 he0)
        (hbound e0 he0s)
    have hmax : ¬ (purgeRefs k s.refs 0
        (List.replicate s.activeMatching.elems.length 0)
        maxInt64).2.2.2 = maxInt64 := ne_of_lt hlt
    constructor
    · rcases purgeRefs_oldest_attained k s.refs 0
          (List.replicate s.activeMatching.elems.length 0) maxInt64 with
        h2 | ⟨e, he, h2⟩
      · exact absurd h2 hmax
      · refine ⟨e, he, ?eq⟩
        show (if _ = maxInt64 then (0 : Int) else _) = e.nanos
        rw [if_neg hmax]
        exact h2
    · intro e he
      show (if _ = maxInt64 then (0 : Int) else _) ≤ e.nanos
      rw [if_neg hmax]
      exact purgeRefs_oldest_lb k s.refs 0 _ maxInt64 e he

theorem claim_C10_witness :
    allEntries (stripeCollide.purge 7).refs ≠ [] ∧
    ((∃ e ∈ allEntries (stripeCollide.purge 7).refs,
        (stripeCollide.purge 7).oldestEntryTs = e.nanos) ∧
      ∀ e ∈ allEntries (stripeCollide.purge 7).refs,
        (stripeCollide.purge 7).oldestEntryTs ≤ e.nanos) :=
  ⟨by decide,
    (claim_C10_amended_oldest_exact stripeCollide 7 (by decide)
      (by decide)).2 (by decide)⟩

/-- C4: invariant I3 is preserved by every operation: if every stripe's
oldest-entry hint is 0 or a lower bound on its stored timestamps, the
same holds for every stripe after an `UpdateSeries` call, after the purge
performed by an `Active` call, and after `ReloadMatchers` — the hint may
be conservative (older than the true minimum, or invalidated to 0) but
never newer than a stored timestamp. -/
theorem claim_C4_oldest_hint_invariant (hash : Labels → Nat)
    (c : ActiveSeries) (series : Labels) (tU nowA tR : Int) (asm : Matchers)
    (hI3 : ∀ i, OldestHintInv (c.stripes i)) :
    (∀ i, OldestHintInv ((c.UpdateSeries hash series tU).stripes i)) ∧
    (∀ i, OldestHintInv (((c.Active nowA).1).stripes i)) ∧
    (∀ i, OldestHintInv ((c.ReloadMatchers asm tR).stripes i)) := by
  refine ⟨?u, ?a, ?r⟩
  · intro i
    show OldestHintInv (Function.update c.stripes (stripeIdOf (hash series))
      ((c.stripes (stripeIdOf (hash series))).updateSeriesTimestamp tU series
        (hash series)) i)
    rcases eq_or_ne i (stripeIdOf (hash series)) with hi | hi
    · subst hi
      rw [Function.update_same]
      exact activeSeriesStripe.update_hint_inv _ tU series (hash series)
        (hI3 _)
    · rw [Function.update_noteq hi]
      exact hI3 i
  · intro i
    show OldestHintInv ((c.stripes i).purge (nowA - c.timeout))
    exact activeSeriesStripe.purge_hint_inv _ _ (hI3 i)
  · intro i
    show OldestHintInv ((c.stripes i).reinit asm)
    exact activeSeriesStripe.reinit_hint_inv _ asm

theorem claim_C4_witness :
    OldestHintInv (((NewActiveSeries mOne 10).UpdateSeries lenHash lblA
      5).stripes ⟨2, by decide⟩) :=
  (claim_C4_oldest_hint_invariant lenHash (NewActiveSeries mOne 10) lblA 5 12
    3 mOne (fun i => show OldestHintInv stripeInit by decide)).1
    ⟨2, by decide⟩

/-- C3: invariants I1 and I2 hold after every `UpdateSeries` call and
after the purge performed by every `Active` call: assuming each stripe's
cached counters agree with its chains before the call (and the bit-vector
lengths are consistent), each stripe's `active` equals the total chain
length and `activeMatching[j]` equals the number of entries whose
`matches[j]` is true afterwards — including when purge recomputes them
over surviving collision-chain entries. -/
theorem claim_C3_cached_counters_invariant (hash : Labels → Nat)
    (c : ActiveSeries) (series : Labels) (tU nowA : Int)
    (hI1 : ∀ i, ActiveCountInv (c.stripes i))
    (hI2 : ∀ i, MatchingCountInv (c.stripes i))
    (hI6 : ∀ i, MatchesLenInv (c.stripes i))
    (hml : ∀ i, ((c.stripes i).matchers.Matches series).length =
      (c.stripes i).activeMatching.elems.length) :
    (∀ i, ActiveCountInv ((c.UpdateSeries hash series tU).stripes i) ∧
      MatchingCountInv ((c.UpdateSeries hash series tU).stripes i)) ∧
    (∀ i, ActiveCountInv (((c.Active nowA).1).stripes i) ∧
      MatchingCountInv (((c.Active nowA).1).stripes i)) := by
  constructor
  · intro i
    show ActiveCountInv (Function.update c.stripes
        (stripeIdOf (hash series))
        ((c.stripes (stripeIdOf (hash series))).updateSeriesTimestamp tU
          series (hash series)) i) ∧
      MatchingCountInv (Function.update c.stripes
        (stripeIdOf (hash series))
        ((c.stripes (stripeIdOf (hash series))).updateSeriesTimestamp tU
          series (hash series)) i)
    rcases eq_or_ne i (stripeIdOf (hash series)) with hi | hi
    · subst hi
      rw [Function.update_same]
      exact ⟨activeSeriesStripe.update_active_inv _ tU series (hash series)
          (hI1 _),
        activeSeriesStripe.update_matching_inv _ tU series (hash series)
          (hI2 _) (hml _)⟩
    · rw [Function.update_noteq hi]
      exact ⟨hI1 i, hI2 i⟩
  · intro i
    show ActiveCountInv ((c.stripes i).purge (nowA - c.timeout)) ∧
      MatchingCountInv ((c.stripes i).purge (nowA - c.timeout))
    exact ⟨activeSeriesStripe.purge_active_inv _ _ (hI1 i),
      activeSeriesStripe.purge_matching_inv _ _ (hI2 i) (hI6 i)⟩

theorem claim_C3_witness :
    ActiveCountInv ((((NewActiveSeries mOne 10).UpdateSeries lenHash lblA
      5)).stripes ⟨2, by decide⟩) ∧
    MatchingCountInv ((((NewActiveSeries mOne 10).UpdateSeries lenHash lblA
      5)).stripes ⟨2, by decide⟩) :=
  (claim_C3_cached_counters_invariant lenHash (NewActiveSeries mOne 10) lblA
    5 12 (fun i => show ActiveCountInv stripeInit by decide)
    (fun i => show MatchingCountInv stripeInit by decide)
    (fun i => show MatchesLenInv stripeInit by decide)
    (fun i => show (stripeInit.matchers.Matches lblA).length =
      stripeInit.activeMatching.elems.length by decide)).1 ⟨2, by decide⟩

/-- C7: the `valid` flag returned by `Active` is true exactly when the
purge cutoff `now - timeout` is strictly after `lastMatchersUpdate`: it
is false whenever the cutoff is at most `lastMatchersUpdate` and true
once the cutoff exceeds it. -/
theorem claim_C7_valid_iff_cutoff_after_reload (c : ActiveSeries)
    (now : Int) :
    ((c.Active now).2.2.2 = true ↔ c.lastMatchersUpdate < now - c.timeout) ∧
    (now - c.timeout ≤ c.lastMatchersUpdate →
      (c.Active now).2.2.2 = false) ∧
    (c.lastMatchersUpdate < now - c.timeout →
      (c.Active now).2.2.2 = true) := by
  have h : (c.Active now).2.2.2 =
      decide (c.lastMatchersUpdate < now - c.timeout) := rfl
  refine ⟨?i, ?f, ?t⟩
  · rw [h]
    exact decide_eq_true_iff
  · intro hle
    rw [h]
    exact decide_eq_false (not_lt.mpr hle)
  · intro hlt
    rw [h]
    exact decide_eq_true hlt

theorem claim_C7_witness :
    (((NewActiveSeries mOne 10).Active 12).2.2.2 = true) ∧
    (((NewActiveSeries mOne 10).Active 9).2.2.2 = false) :=
  ⟨(claim_C7_valid_iff_cutoff_after_reload (NewActiveSeries mOne 10) 12).2.2
      (by decide),
    (claim_C7_valid_iff_cutoff_after_reload (NewActiveSeries mOne 10) 9).2.1
      (by decide)⟩

theorem activeSeriesStripe.update_hint_zero (s : activeSeriesStripe)
    (t : Int) (l : Labels) (fp : Nat) (h0 : s.oldestEntryTs = 0) :
    (s.updateSeriesTimestamp t l fp).oldestEntryTs = 0 := by
  cases hfind : findInChain (mapGet s.refs fp) l with
  | none =>
    rw [activeSeriesStripe.updateSeriesTimestamp_of_miss t hfind]
    by_cases h1 : t < s.oldestEntryTs
    · simp only [if_pos h1]
    · simp only [if_neg h1]
      exact h0
  | some prev =>
    by_cases ht : prev < t
    · rw [activeSeriesStripe.updateSeriesTimestamp_of_hit_advance t hfind ht]
      by_cases h1 : t < s.oldestEntryTs
      · simp only [if_pos h1]
      · simp only [if_neg h1]
        exact h0
    · rw [activeSeriesStripe.updateSeriesTimestamp_of_hit_noadvance t hfind ht]
      exact h0

theorem activeSeriesStripe.findEntry_update_exists (s : activeSeriesStripe)
    (t : Int) (l : Labels) (fp : Nat) :
    ∃ v, (s.updateSeriesTimestamp t l fp).findEntryForSeries fp l = some v ∧
      t ≤ v := by
  cases hfind : findInChain (mapGet s.refs fp) l with
  | none =>
    exact ⟨t, activeSeriesStripe.findEntry_update_of_miss t hfind,
      le_refl t⟩
  | some prev =>
    exact ⟨max prev t, activeSeriesStripe.findEntry_update_of_hit t hfind,
      le_max_right prev t⟩

/-- C8: `UpdateSeries` is idempotent at equal time — from every tracker
state, two consecutive calls with the same label set and the same `now`
leave the tracker (all chains, timestamps, counters and oldest-entry
hints) identical to the state after one call. -/
theorem claim_C8_update_idempotent (hash : Labels → Nat) (c : ActiveSeries)
    (series : Labels) (now : Int) :
    (c.UpdateSeries hash series now).UpdateSeries hash series now =
      c.UpdateSeries hash series now := by
  simp only [ActiveSeries.UpdateSeries]
  congr 1
  rw [Function.update_same, activeSeriesStripe.updateSeriesTimestamp_idem,
    Function.update_idem]

/-- C5: when `UpdateSeries` hits an existing entry, the stored timestamp
afterwards equals `max(previous, now)`; sequentially, after updates at
t1 then t2 with t1 < t2 the stored timestamp is at least t2; and in the
backward-clock scenario — first observation at t1, second update at
t2 < t1 from a fresh tracker — the stored timestamp stays exactly t1 and
the oldest-entry hint of that stripe is 0. -/
theorem claim_C5_timestamp_monotone (hash : Labels → Nat) :
    (∀ (c : ActiveSeries) (l : Labels) (t prev : Int),
      lookupSeries hash c l = some prev →
      lookupSeries hash (c.UpdateSeries hash l t) l = some (max prev t)) ∧
    (∀ (c : ActiveSeries) (l : Labels) (t1 t2 : Int), t1 < t2 →
      ∃ v, lookupSeries hash
          ((c.UpdateSeries hash l t1).UpdateSeries hash l t2) l = some v ∧
        t2 ≤ v) ∧
    (∀ (m : Matchers) (timeout : Int) (l : Labels) (t1 t2 : Int), t2 < t1 →
      lookupSeries hash (((NewActiveSeries m timeout).UpdateSeries hash l
        t1).UpdateSeries hash l t2) l = some t1 ∧
      ((((NewActiveSeries m timeout).UpdateSeries hash l
        t1).UpdateSeries hash l t2).stripes
          (stripeIdOf (hash l))).oldestEntryTs = 0) := by
  have hstripe : ∀ (c : ActiveSeries) (l : Labels) (t : Int),
      (c.UpdateSeries hash l t).stripes (stripeIdOf (hash l)) =
        (c.stripes (stripeIdOf (hash l))).updateSeriesTimestamp t l
          (hash l) := by
    intro c l t
    show Function.update c.stripes (stripeIdOf (hash l))
        ((c.stripes (stripeIdOf (hash l))).updateSeriesTimestamp t l
          (hash l)) (stripeIdOf (hash l)) =
      (c.stripes (stripeIdOf (hash l))).updateSeriesTimestamp t l (hash l)
    rw [Function.update_same]
  refine ⟨?hit, ?seq, ?back⟩
  · intro c l t prev h
    show ((c.UpdateSeries hash l t).stripes
      (stripeIdOf (hash l))).findEntryForSeries (hash l) l =
      some (max prev t)
    rw [hstripe c l t]
    exact activeSeriesStripe.findEntry_update_of_hit t h
  · intro c l t1 t2 h12
    rcases activeSeriesStripe.findEntry_update_exists
        (c.stripes (stripeIdOf (hash l))) t1 l (hash l) with ⟨v1, hv1, hge1⟩
    have hv1' : lookupSeries hash (c.UpdateSeries hash l t1) l = some v1 := by
      show ((c.UpdateSeries hash l t1).stripes
        (stripeIdOf (hash l))).findEntryForSeries (hash l) l = some v1
      rw [hstripe c l t1]
      exact hv1
    refine ⟨max v1 t2, ?goal2, le_max_right v1 t2⟩
    show ((((c.UpdateSeries hash l t1)).UpdateSeries hash l t2).stripes
      (stripeIdOf (hash l))).findEntryForSeries (hash l) l =
      some (max v1 t2)
    rw [hstripe (c.UpdateSeries hash l t1) l t2]
    exact activeSeriesStripe.findEntry_update_of_hit t2 hv1'
  · intro m timeout l t1 t2 h21
    have hmiss : findInChain (mapGet ((NewActiveSeries m timeout).stripes
        (stripeIdOf (hash l))).refs (hash l)) l = none := rfl
    have h1 : lookupSeries hash
        ((NewActiveSeries m timeout).UpdateSeries hash l t1) l = some t1 := by
      show (((NewActiveSeries m timeout).UpdateSeries hash l t1).stripes
        (stripeIdOf (hash l))).findEntryForSeries (hash l) l = some t1
      rw [hstripe (NewActiveSeries m timeout) l t1]
      exact activeSeriesStripe.findEntry_update_of_miss t1 hmiss
    have hhint1 : (((NewActiveSeries m timeout).UpdateSeries hash l
        t1).stripes (stripeIdOf (hash l))).oldestEntryTs = 0 := by
      rw [hstripe (NewActiveSeries m timeout) l t1]
      exact activeSeriesStripe.update_hint_zero _ t1 l (hash l) rfl
    have hnoadv : (((NewActiveSeries m timeout).UpdateSeries hash l
        t1).stripes (stripeIdOf (hash l))).updateSeriesTimestamp t2 l
          (hash l) =
        ((NewActiveSeries m timeout).UpdateSeries hash l t1).stripes
          (stripeIdOf (hash l)) :=
      activeSeriesStripe.updateSeriesTimestamp_of_hit_noadvance t2 h1
        (not_lt.mpr (le_of_lt h21))
    constructor
    · show ((((NewActiveSeries m timeout).UpdateSeries hash l
        t1).UpdateSeries hash l t2).stripes
          (stripeIdOf (hash l))).findEntryForSeries (hash l) l = some t1
      rw [hstripe ((NewActiveSeries m timeout).UpdateSeries hash l t1) l t2,
        hnoadv]
      exact h1
    · rw [hstripe ((NewActiveSeries m timeout).UpdateSeries hash l t1) l t2,
        hnoadv]
      exact hhint1

theorem claim_C5_witness :
    (lookupSeries lenHash ((((NewActiveSeries mOne 10).UpdateSeries lenHash
        lblA 5).UpdateSeries lenHash lblA 90).UpdateSeries lenHash lblA 90)
        lblA = some (max 90 90)) ∧
    (∃ v, lookupSeries lenHash (((NewActiveSeries mOne 10).UpdateSeries
        lenHash lblA 5).UpdateSeries lenHash lblA 7) lblA = some v ∧
      (7 : Int) ≤ v) ∧
    (lookupSeries lenHash (((NewActiveSeries mOne 10).UpdateSeries lenHash
        lblA 100).UpdateSeries lenHash lblA 90) lblA = some 100 ∧
      ((((NewActiveSeries mOne 10).UpdateSeries lenHash lblA
        100).UpdateSeries lenHash lblA 90).stripes
          (stripeIdOf (lenHash lblA))).oldestEntryTs = 0) :=
  ⟨(claim_C5_timestamp_monotone lenHash).1
      (((NewActiveSeries mOne 10).UpdateSeries lenHash lblA
        5).UpdateSeries lenHash lblA 90) lblA 90 90 (by decide),
    (claim_C5_timestamp_monotone lenHash).2.1 (NewActiveSeries mOne 10)
      lblA 5 7 (by decide),
    (claim_C5_timestamp_monotone lenHash).2.2 mOne 10 lblA 100 90
      (by decide)⟩

theorem addInto_zero_left (n : Nat) (b : List Int) (h : n ≤ b.length) :
    addInto (List.replicate n 0) b = b := by
  induction n generalizing b with
  | zero => rfl
  | succ n ih =>
    cases b with
    | nil => simp at h
    | cons x xs =>
      show (x + 0) :: addInto (List.replicate n 0) xs = x :: xs
      rw [ih xs (by simpa using h)]
      simp

theorem activeSeriesStripe.purge_of_empty_refs {s : activeSeriesStripe}
    (h0 : s.oldestEntryTs = 0) (hrefs : s.refs = []) (k : Int) :
    s.purge k =
      { s with
          refs := []
          active := 0
          activeMatching :=
            { cap := (resizeAndClear s.activeMatching.elems.length
                s.activeMatching).cap
              elems := List.replicate s.activeMatching.elems.length 0 }
          oldestEntryTs := 0 } := by
  rw [activeSeriesStripe.purge_slow_eq (by rw [h0]; simp), hrefs]
  simp [purgeRefs_nilrefs]

theorem fold_const_zero
    (f : Fin numActiveSeriesStripes → activeSeriesStripe) (L : Nat)
    (hf : ∀ i, (f i).active = 0 ∧
      (f i).activeMatching.elems = List.replicate L 0) :
    ∀ (is : List (Fin numActiveSeriesStripes)) (t0 : Int) (m0 : List Int),
      L ≤ m0.length →
      is.foldl (fun (acc : Int × List Int) i =>
        let g := (f i).getTotalAndUpdateMatching acc.2
        (acc.1 + g.1, g.2)) (t0, m0) = (t0, m0) := by
  intro is
  induction is with
  | nil => intro t0 m0 _; rfl
  | cons i rest ih =>
    intro t0 m0 hlen
    simp only [List.foldl_cons]
    have hg : (f i).getTotalAndUpdateMatching m0 = (0, m0) := by
      unfold activeSeriesStripe.getTotalAndUpdateMatching
      rw [(hf i).1, (hf i).2, addInto_zero_left L m0 hlen]
    rw [hg]
    show List.foldl _ (t0 + 0, m0) rest = (t0, m0)
    rw [add_zero]
    exact ih t0 m0 hlen

theorem ActiveSeries.Active_eq (c : ActiveSeries) (now : Int) :
    c.Active now =
      (c.purgeAll (now - c.timeout),
        ((List.finRange numActiveSeriesStripes).foldl
          (fun (acc : Int × List Int) i =>
            let g := ((c.purgeAll (now - c.timeout)).stripes
              i).getTotalAndUpdateMatching acc.2
            (acc.1 + g.1, g.2))
          ((0 : Int),
            (resizeAndClear c.matchers.MatcherNames.length
              nilIntSlice).elems)).1,
        ((List.finRange numActiveSeriesStripes).foldl
          (fun (acc : Int × List Int) i =>
            let g := ((c.purgeAll (now - c.timeout)).stripes
              i).getTotalAndUpdateMatching acc.2
            (acc.1 + g.1, g.2))
          ((0 : Int),
            (resizeAndClear c.matchers.MatcherNames.length
              nilIntSlice).elems)).2,
        decide (c.lastMatchersUpdate < now - c.timeout)) := rfl

set_option maxRecDepth 4096 in
/-- C6: immediately after `ReloadMatchers(new_matchers)`, every stripe is
empty — no chains, `active = 0`, an all-zero per-matcher vector sized to
the new matcher count, and a zero oldest-entry hint — and a following
`Active` call returns total 0 and the all-zero vector of the new length,
regardless of the prior tracker state. -/
theorem claim_C6_reload_discards_everything (c : ActiveSeries)
    (asm : Matchers) (tR nowA : Int) :
    (∀ i, ((c.ReloadMatchers asm tR).stripes i).refs = [] ∧
      ((c.ReloadMatchers asm tR).stripes i).active = 0 ∧
      ((c.ReloadMatchers asm tR).stripes i).activeMatching.elems =
        List.replicate asm.MatcherNames.length 0 ∧
      ((c.ReloadMatchers asm tR).stripes i).oldestEntryTs = 0) ∧
    ((c.ReloadMatchers asm tR).Active nowA).2.1 = 0 ∧
    ((c.ReloadMatchers asm tR).Active nowA).2.2.1 =
      List.replicate asm.MatcherNames.length 0 := by
  have hstripe : ∀ i, (c.ReloadMatchers asm tR).stripes i =
      (c.stripes i).reinit asm := fun i => rfl
  have hre : ∀ i, ((c.stripes i).reinit asm).refs = [] ∧
      ((c.stripes i).reinit asm).active = 0 ∧
      ((c.stripes i).reinit asm).activeMatching.elems =
        List.replicate asm.MatcherNames.length 0 ∧
      ((c.stripes i).reinit asm).oldestEntryTs = 0 := by
    intro i
    refine ⟨rfl, rfl, ?elems, rfl⟩
    show (resizeAndClear asm.MatcherNames.length
      (c.stripes i).activeMatching).elems = _
    exact resizeAndClear_elems _ _
  have hps : ∀ i, (((c.ReloadMatchers asm tR).purgeAll
      (nowA - (c.ReloadMatchers asm tR).timeout)).stripes i).active = 0 ∧
      (((c.ReloadMatchers asm tR).purgeAll
        (nowA - (c.ReloadMatchers asm tR).timeout)).stripes
          i).activeMatching.elems =
        List.replicate asm.MatcherNames.length 0 := by
    intro i
    have hp := activeSeriesStripe.purge_of_empty_refs
      (s := (c.stripes i).reinit asm) rfl rfl
      (nowA - (c.ReloadMatchers asm tR).timeout)
    have hs : ((c.ReloadMatchers asm tR).purgeAll
        (nowA - (c.ReloadMatchers asm tR).timeout)).stripes i =
        ((c.stripes i).reinit asm).purge
          (nowA - (c.ReloadMatchers asm tR).timeout) := rfl
    rw [hs, hp]
    refine ⟨rfl, ?e2⟩
    show List.replicate
      ((c.stripes i).reinit asm).activeMatching.elems.length
      (0 : Int) = _
    rw [(hre i).2.2.1, List.length_replicate]
  have hfold := fold_const_zero
    (((c.ReloadMatchers asm tR).purgeAll
      (nowA - (c.ReloadMatchers asm tR).timeout)).stripes)
    asm.MatcherNames.length hps
    (List.finRange numActiveSeriesStripes) 0
    (List.replicate asm.MatcherNames.length 0) (by simp)
  have hinit : (resizeAndClear
      (c.ReloadMatchers asm tR).matchers.MatcherNames.length
      nilIntSlice).elems = List.replicate asm.MatcherNames.length 0 :=
    resizeAndClear_elems _ _
  refine ⟨fun i => by rw [hstripe i]; exact hre i, ?activeTotal, ?matchTotal⟩
  case activeTotal =>
    rw [ActiveSeries.Active_eq]
    show ((List.finRange numActiveSeriesStripes).foldl _
      ((0 : Int), (resizeAndClear
        (c.ReloadMatchers asm tR).matchers.MatcherNames.length
        nilIntSlice).elems)).1 = 0
    rw [hinit, hfold]
  case matchTotal =>
    rw [ActiveSeries.Active_eq]
    show ((List.finRange numActiveSeriesStripes).foldl _
      ((0 : Int), (resizeAndClear
        (c.ReloadMatchers asm tR).matchers.MatcherNames.length
        nilIntSlice).elems)).2 = List.replicate asm.MatcherNames.length 0
    rw [hinit, hfold]

theorem placement_mapGet {hash : Labels → Nat}
    {refs : List (Nat × List activeSeriesEntry)} {k : Nat}
    (hpl : ∀ p ∈ refs, ∀ e ∈ p.2, hash e.lbs = p.1) :
    ∀ e ∈ mapGet refs k, hash e.lbs = k := by
  induction refs with
  | nil => intro e he; simp [mapGet] at he
  | cons p rest ih =>
    obtain ⟨k', v'⟩ := p
    intro e he
    by_cases h0 : k' = k
    · subst h0
      simp only [mapGet, if_pos rfl] at he
      exact hpl (k', v') (by simp) e he
    · simp only [mapGet, if_neg h0] at he
      exact ih (fun p hp => hpl p (by simp [hp])) e he

theorem mem_of_mapGet_ne_nil {refs : List (Nat × List activeSeriesEntry)}
    {k : Nat} (h : mapGet refs k ≠ []) : (k, mapGet refs k) ∈ refs := by
  induction refs with
  | nil => exact absurd rfl h
  | cons p rest ih =>
    obtain ⟨k', v'⟩ := p
    by_cases h0 : k' = k
    · subst h0
      simp only [mapGet, if_pos rfl] at h ⊢
      exact List.mem_cons_self _ _
    · simp only [mapGet, if_neg h0] at h ⊢
      exact List.mem_cons_of_mem _ (ih h)

theorem mem_keys_of_mapGet_ne_nil
    {refs : List (Nat × List activeSeriesEntry)} {k : Nat}
    (h : mapGet refs k ≠ []) : k ∈ keysOf refs := by
  by_contra hc
  exact h (mapGet_eq_nil_of_not_mem hc)

theorem findInChain_some_mem {ch : List activeSeriesEntry} {l : Labels}
    {v : Int} (h : findInChain ch l = some v) : l ∈ ch.map (·.lbs) := by
  induction ch with
  | nil => simp [findInChain] at h
  | cons e rest ih =>
    by_cases h0 : e.lbs = l
    · simp [h0]
    · simp only [findInChain, if_neg h0] at h
      simp [ih h]

theorem mem_setChainNanos_pair {ch : List activeSeriesEntry} {l : Labels}
    {t : Int} {e' : activeSeriesEntry} (h : e' ∈ setChainNanos ch l t) :
    ∃ e0 ∈ ch, e'.lbs = e0.lbs ∧ e'.matchesVec = e0.matchesVec := by
  induction ch with
  | nil => simp [setChainNanos] at h
  | cons e rest ih =>
    by_cases h0 : e.lbs = l
    · simp only [setChainNanos, if_pos h0, List.mem_cons] at h
      rcases h with h | h
      · exact ⟨e, by simp, by simp [h], by simp [h]⟩
      · exact ⟨e', by simp [h], rfl, rfl⟩
    · simp only [setChainNanos, if_neg h0, List.mem_cons] at h
      rcases h with h | h
      · exact ⟨e, by simp, by simp [h], by simp [h]⟩
      · rcases ih h with ⟨e0, he0, h1, h2⟩
        exact ⟨e0, by simp [he0], h1, h2⟩

theorem mem_allEntries_setNanos_pair
    {refs : List (Nat × List activeSeriesEntry)} {fp : Nat} {l : Labels}
    {t : Int} {e' : activeSeriesEntry}
    (h : e' ∈ allEntries (setNanos refs fp l t)) :
    ∃ e0 ∈ allEntries refs, e'.lbs = e0.lbs ∧
      e'.matchesVec = e0.matchesVec := by
  rcases mem_allEntries_mapSet h with h1 | h1
  · rcases mem_setChainNanos_pair h1 with ⟨e0, he0, h2, h3⟩
    exact ⟨e0, mem_allEntries_of_mem_mapGet he0, h2, h3⟩
  · exact ⟨e', h1, rfl, rfl⟩

theorem mem_allEntries_lbs {refs : List (Nat × List activeSeriesEntry)}
    {x : Labels} :
    x ∈ (allEntries refs).map (·.lbs) ↔
      ∃ p ∈ refs, ∃ e ∈ p.2, e.lbs = x := by
  constructor
  · intro h
    rcases List.mem_map.mp h with ⟨e, he, hx⟩
    clear h
    induction refs with
    | nil => simp [allEntries] at he
    | cons p rest ih =>
      obtain ⟨k', v'⟩ := p
      simp only [allEntries, List.mem_append] at he
      rcases he with he | he
      · exact ⟨(k', v'), by simp, e, he, hx⟩
      · rcases ih he with ⟨q, hq, e2, he2, hx2⟩
        exact ⟨q, by simp [hq], e2, he2, hx2⟩
  · rintro ⟨p, hp, e, he, hx⟩
    exact hx ▸ List.mem_map_of_mem (·.lbs) (mem_allEntries_of_mem hp he)

theorem allEntries_lbs_nodup (hash : Labels → Nat)
    (refs : List (Nat × List activeSeriesEntry))
    (hpl : ∀ p ∈ refs, ∀ e ∈ p.2, hash e.lbs = p.1)
    (hkeys : (keysOf refs).Nodup)
    (hch : ∀ p ∈ refs, (p.2.map (·.lbs)).Nodup) :
    ((allEntries refs).map (·.lbs)).Nodup := by
  induction refs with
  | nil => simp [allEntries]
  | cons p rest ih =>
    obtain ⟨k, ch⟩ := p
    simp only [allEntries, List.map_append]
    rw [List.nodup_append]
    refine ⟨hch (k, ch) (by simp), ?rest, ?disj⟩
    case rest =>
      exact ih (fun p hp => hpl p (by simp [hp]))
        (by simpa [keysOf_cons] using hkeys.of_cons)
        (fun p hp => hch p (by simp [hp]))
    case disj =>
      intro x hx1 hx2
      rcases List.mem_map.mp hx1 with ⟨e1, he1, hxe1⟩
      rcases mem_allEntries_lbs.mp hx2 with ⟨q, hq, e2, he2, hxe2⟩
      have h1 : hash x = k := by
        rw [← hxe1]
        exact hpl (k, ch) (by simp) e1 he1
      have h2 : hash x = q.1 := by
        rw [← hxe2]
        exact hpl q (by simp [hq]) e2 he2
      have hkq : q.1 ∈ keysOf rest := List.mem_map_of_mem Prod.fst hq
      have hkk : k ∉ keysOf rest := by
        simpa [keysOf_cons] using (List.nodup_cons.mp
          (by simpa [keysOf_cons] using hkeys)).1
      rw [← h1, h2] at hkk
      exact hkk hkq

theorem countMatch_eq_countP_lbs (j : Nat) (m : Matchers)
    (es : List activeSeriesEntry)
    (hmatch : ∀ e ∈ es, e.matchesVec = m.Matches e.lbs) :
    countMatch j es =
      (es.map (·.lbs)).countP (fun x => (m.Matches x).getD j false) := by
  induction es with
  | nil => rfl
  | cons e rest ih =>
    rw [countMatch_cons, List.map_cons, List.countP_cons,
      ih (fun e2 he2 => hmatch e2 (by simp [he2]))]
    rw [hmatch e (by simp)]

theorem allEntries_purgeRefsSpec_keepall {k : Int}
    {refs : List (Nat × List activeSeriesEntry)}
    (hkeep : ∀ e ∈ allEntries refs, k ≤ e.nanos) :
    allEntries (purgeRefsSpec k refs) = allEntries refs := by
  induction refs with
  | nil => rfl
  | cons p rest ih =>
    obtain ⟨fp, ch⟩ := p
    have hfil : ch.filter (fun x => decide (k ≤ x.nanos)) = ch :=
      List.filter_eq_self.mpr (fun e he => by
        simp only [decide_eq_true_eq]
        exact hkeep e (by simp [allEntries, he]))
    have ihr := ih (fun e he => hkeep e (by simp [allEntries, he]))
    by_cases hch : ch = []
    · rw [purgeRefsSpec_cons_none (by rw [hfil]; exact hch)]
      rw [ihr, hch]
      simp [allEntries]
    · rw [purgeRefsSpec_cons_some (by rw [hfil]; exact hch), hfil]
      simp only [allEntries]
      rw [ihr]

namespace activeSeriesStripe

theorem update_matchers_eq (s : activeSeriesStripe) (t : Int) (l : Labels)
    (fp : Nat) :
    (s.updateSeriesTimestamp t l fp).matchers = s.matchers := by
  cases hfind : findInChain (mapGet s.refs fp) l with
  | none =>
    rw [updateSeriesTimestamp_of_miss t hfind]
    by_cases h1 : t < s.oldestEntryTs
    · simp only [if_pos h1]
    · simp only [if_neg h1]
  | some prev =>
    by_cases ht : prev < t
    · rw [updateSeriesTimestamp_of_hit_advance t hfind ht]
      by_cases h1 : t < s.oldestEntryTs
      · simp only [if_pos h1]
      · simp only [if_neg h1]
    · rw [updateSeriesTimestamp_of_hit_noadvance t hfind ht]

theorem update_matching_all (s : activeSeriesStripe) (t : Int) (l : Labels)
    (fp : Nat)
    (hI2 : ∀ j, s.activeMatching.elems.getD j 0 =
      (countMatch j (allEntries s.refs) : Int))
    (hml : (s.matchers.Matches l).length = s.activeMatching.elems.length) :
    ∀ j, (s.updateSeriesTimestamp t l fp).activeMatching.elems.getD j 0 =
      (countMatch j
        (allEntries (s.updateSeriesTimestamp t l fp).refs) : Int) := by
  cases hfind : findInChain (mapGet s.refs fp) l with
  | none =>
    rw [updateSeriesTimestamp_of_miss t hfind]
    have hperm := allEntries_mapSet_append_perm s.refs fp
      ⟨l, t, s.matchers.Matches l⟩
    have key : ∀ j, (incrementMatches (s.matchers.Matches l)
        s.activeMatching.elems).getD j 0 =
        (countMatch j (allEntries (mapSet s.refs fp (mapGet s.refs fp ++
          [⟨l, t, s.matchers.Matches l⟩]))) : Int) := by
      intro j
      rw [incrementMatches_getD (le_of_eq hml) j]
      rw [countMatch_perm j hperm, countMatch_append]
      rw [hI2 j]
      have hone : (countMatch j
          [activeSeriesEntry.mk l t (s.matchers.Matches l)] : Int) =
          if (s.matchers.Matches l).getD j false then 1 else 0 := by
        by_cases hb : (s.matchers.Matches l).getD j false = true <;>
          simp [countMatch, List.countP_cons, hb]
      push_cast
      rw [hone]
    by_cases h1 : t < s.oldestEntryTs
    · simp only [if_pos h1]
      exact key
    · simp only [if_neg h1]
      exact key
  | some prev =>
    by_cases ht : prev < t
    · rw [updateSeriesTimestamp_of_hit_advance t hfind ht]
      have key : ∀ j, s.activeMatching.elems.getD j 0 =
          (countMatch j (allEntries (setNanos s.refs fp l t)) : Int) := by
        intro j
        rw [countMatch_congr j
          (allEntries_setNanos_map_matchesVec s.refs fp l t)]
        exact hI2 j
      by_cases h1 : t < s.oldestEntryTs
      · simp only [if_pos h1]
        exact key
      · simp only [if_neg h1]
        exact key
    · rw [updateSeriesTimestamp_of_hit_noadvance t hfind ht]
      exact hI2

theorem purge_keepall (s : activeSeriesStripe) (k : Int)
    (hkeep : ∀ e ∈ allEntries s.refs, k ≤ e.nanos)
    (hI1 : s.active = ((allEntries s.refs).length : Int))
    (hI2 : ∀ j, s.activeMatching.elems.getD j 0 =
      (countMatch j (allEntries s.refs) : Int))
    (hI6 : ∀ e ∈ allEntries s.refs,
      e.matchesVec.length = s.activeMatching.elems.length) :
    allEntries (s.purge k).refs = allEntries s.refs ∧
    (s.purge k).active = ((allEntries s.refs).length : Int) ∧
    (∀ j, (s.purge k).activeMatching.elems.getD j 0 =
      (countMatch j (allEntries s.refs) : Int)) ∧
    (s.purge k).activeMatching.elems.length =
      s.activeMatching.elems.length := by
  have hrepl : ∀ e ∈ allEntries s.refs, e.matchesVec.length ≤
      (List.replicate s.activeMatching.elems.length (0 : Int)).length := by
    intro e he
    rw [List.length_replicate]
    exact le_of_eq (hI6 e he)
  by_cases h : s.oldestEntryTs > 0 ∧ k ≤ s.oldestEntryTs
  · rw [purge_of_fast h]
    exact ⟨rfl, hI1, hI2, rfl⟩
  · rw [purge_slow_eq h]
    refine ⟨?refs, ?act, ?mat, ?len⟩
    case refs =>
      show allEntries (purgeRefs k s.refs 0
        (List.replicate s.activeMatching.elems.length 0) maxInt64).1 = _
      rw [purgeRefs_fst]
      exact allEntries_purgeRefsSpec_keepall hkeep
    case act =>
      show (purgeRefs k s.refs 0
        (List.replicate s.activeMatching.elems.length 0) maxInt64).2.1 =
        ((allEntries s.refs).length : Int)
      rw [purgeRefs_active, allEntries_purgeRefsSpec_keepall hkeep]
      ring
    case mat =>
      intro j
      show (purgeRefs k s.refs 0
        (List.replicate s.activeMatching.elems.length 0)
          maxInt64).2.2.1.getD j 0 =
        (countMatch j (allEntries s.refs) : Int)
      rw [purgeRefs_matching_getD k s.refs 0 _ maxInt64 j hrepl,
        allEntries_purgeRefsSpec_keepall hkeep, getD_replicate_zero]
      ring
    case len =>
      show (purgeRefs k s.refs 0
        (List.replicate s.activeMatching.elems.length 0)
          maxInt64).2.2.1.length = s.activeMatching.elems.length
      rw [purgeRefs_matching_length k s.refs 0 _ maxInt64 hrepl,
        List.length_replicate]

end activeSeriesStripe

theorem refsWF_insert (hash : Labels → Nat) (m : Matchers) (iv : Nat)
    (refs : List (Nat × List activeSeriesEntry)) (l : Labels) (t : Int)
    (hph : ∀ p ∈ refs, ∀ e ∈ p.2, hash e.lbs = p.1)
    (hps : ∀ p ∈ refs, p.1 % numActiveSeriesStripes = iv)
    (hkn : (keysOf refs).Nodup)
    (hcn : ∀ p ∈ refs, (p.2.map (·.lbs)).Nodup)
    (hme : ∀ e ∈ allEntries refs, e.matchesVec = m.Matches e.lbs)
    (hmiss : findInChain (mapGet refs (hash l)) l = none)
    (hst : hash l % numActiveSeriesStripes = iv) :
    (∀ p ∈ mapSet refs (hash l) (mapGet refs (hash l) ++
        [activeSeriesEntry.mk l t (m.Matches l)]), ∀ e ∈ p.2, hash e.lbs = p.1) ∧
    (∀ p ∈ mapSet refs (hash l) (mapGet refs (hash l) ++
        [activeSeriesEntry.mk l t (m.Matches l)]), p.1 % numActiveSeriesStripes = iv) ∧
    (keysOf (mapSet refs (hash l) (mapGet refs (hash l) ++
        [activeSeriesEntry.mk l t (m.Matches l)]))).Nodup ∧
    (∀ p ∈ mapSet refs (hash l) (mapGet refs (hash l) ++
        [activeSeriesEntry.mk l t (m.Matches l)]), (p.2.map (·.lbs)).Nodup) ∧
    (∀ e ∈ allEntries (mapSet refs (hash l) (mapGet refs (hash l) ++
        [activeSeriesEntry.mk l t (m.Matches l)])), e.matchesVec = m.Matches e.lbs) := by
  have hchain : ∀ e ∈ mapGet refs (hash l), hash e.lbs = hash l :=
    placement_mapGet hph
  refine ⟨?ph, ?ps, ?kn, ?cn, ?me⟩
  case ph =>
    intro p hp e he
    rcases mem_mapSet hp with hp1 | hp1
    · rw [hp1] at he ⊢
      rcases List.mem_append.mp he with he2 | he2
      · exact hchain e he2
      · rcases List.mem_singleton.mp he2 with rfl
        rfl
    · exact hph p hp1 e he
  case ps =>
    intro p hp
    rcases mem_mapSet hp with hp1 | hp1
    · rw [hp1]
      exact hst
    · exact hps p hp1
  case kn =>
    by_cases hk : hash l ∈ keysOf refs
    · rw [keysOf_mapSet_of_mem _ hk]
      exact hkn
    · rw [mapSet_of_not_mem _ hk]
      have : keysOf (refs ++ [(hash l, mapGet refs (hash l) ++
          [activeSeriesEntry.mk l t (m.Matches l)])]) = keysOf refs ++ [hash l] := by
        simp [keysOf]
      rw [this]
      simp only [List.nodup_append]
      exact ⟨hkn, List.nodup_singleton _,
        fun x hx hx2 => hk (by rwa [List.mem_singleton.mp hx2] at hx)⟩
  case cn =>
    intro p hp
    rcases mem_mapSet hp with hp1 | hp1
    · rw [hp1]
      show ((mapGet refs (hash l) ++ [activeSeriesEntry.mk l t (m.Matches l)]).map
        (·.lbs)).Nodup
      rw [List.map_append]
      rw [List.nodup_append]
      refine ⟨?hd, by simp, ?dj⟩
      case hd =>
        by_cases hne : mapGet refs (hash l) = []
        · rw [hne]
          simp
        · exact hcn _ (mem_of_mapGet_ne_nil hne)
      case dj =>
        intro x hx hx2
        simp only [List.map_cons, List.map_nil, List.mem_singleton] at hx2
        subst hx2
        rcases List.mem_map.mp hx with ⟨e, he, hxe⟩
        have := findInChain_eq_none_iff.mp hmiss e he
        exact this hxe
    · exact hcn p hp1
  case me =>
    intro e he
    rcases mem_allEntries_mapSet he with he1 | he1
    · rcases List.mem_append.mp he1 with he2 | he2
      · exact hme e (mem_allEntries_of_mem_mapGet he2)
      · rcases List.mem_singleton.mp he2 with rfl
        rfl
    · exact hme e he1

theorem refsWF_setNanos (hash : Labels → Nat) (m : Matchers) (iv : Nat)
    (refs : List (Nat × List activeSeriesEntry)) (fp : Nat) (l : Labels)
    (t : Int)
    (hph : ∀ p ∈ refs, ∀ e ∈ p.2, hash e.lbs = p.1)
    (hps : ∀ p ∈ refs, p.1 % numActiveSeriesStripes = iv)
    (hkn : (keysOf refs).Nodup)
    (hcn : ∀ p ∈ refs, (p.2.map (·.lbs)).Nodup)
    (hme : ∀ e ∈ allEntries refs, e.matchesVec = m.Matches e.lbs)
    (hhit : findInChain (mapGet refs fp) l ≠ none) :
    (∀ p ∈ setNanos refs fp l t, ∀ e ∈ p.2, hash e.lbs = p.1) ∧
    (∀ p ∈ setNanos refs fp l t, p.1 % numActiveSeriesStripes = iv) ∧
    (keysOf (setNanos refs fp l t)).Nodup ∧
    (∀ p ∈ setNanos refs fp l t, (p.2.map (·.lbs)).Nodup) ∧
    (∀ e ∈ allEntries (setNanos refs fp l t),
      e.matchesVec = m.Matches e.lbs) := by
  have hne : mapGet refs fp ≠ [] := by
    intro hc
    rw [hc] at hhit
    exact hhit rfl
  have hmem : (fp, mapGet refs fp) ∈ refs := mem_of_mapGet_ne_nil hne
  have hchain : ∀ e ∈ mapGet refs fp, hash e.lbs = fp :=
    placement_mapGet hph
  refine ⟨?ph, ?ps, ?kn, ?cn, ?me⟩
  case ph =>
    intro p hp e he
    rcases mem_mapSet hp with hp1 | hp1
    · rw [hp1] at he ⊢
      rcases mem_setChainNanos_pair he with ⟨e0, he0, hl, _⟩
      rw [hl]
      exact hchain e0 he0
    · exact hph p hp1 e he
  case ps =>
    intro p hp
    rcases mem_mapSet hp with hp1 | hp1
    · rw [hp1]
      exact hps (fp, mapGet refs fp) hmem
    · exact hps p hp1
  case kn =>
    rw [show keysOf (setNanos refs fp l t) = keysOf refs from
      keysOf_mapSet_of_mem _ (mem_keys_of_mapGet_ne_nil hne)]
    exact hkn
  case cn =>
    intro p hp
    rcases mem_mapSet hp with hp1 | hp1
    · rw [hp1]
      show ((setChainNanos (mapGet refs fp) l t).map (·.lbs)).Nodup
      rw [setChainNanos_map_lbs]
      exact hcn (fp, mapGet refs fp) hmem
    · exact hcn p hp1
  case me =>
    intro e he
    rcases mem_allEntries_setNanos_pair he with ⟨e0, he0, hl, hmv⟩
    rw [hmv, hl]
    exact hme e0 he0

namespace activeSeriesStripe

theorem update_matching_elems_length (s : activeSeriesStripe) (t : Int)
    (l : Labels) (fp : Nat)
    (hml : (s.matchers.Matches l).length = s.activeMatching.elems.length) :
    (s.updateSeriesTimestamp t l fp).activeMatching.elems.length =
      s.activeMatching.elems.length := by
  cases hfind : findInChain (mapGet s.refs fp) l with
  | none =>
    rw [updateSeriesTimestamp_of_miss t hfind]
    have key : (incrementMatches (s.matchers.Matches l)
        s.activeMatching.elems).length = s.activeMatching.elems.length :=
      incrementMatches_length (le_of_eq hml)
    by_cases h1 : t < s.oldestEntryTs
    · simp only [if_pos h1]
      exact key
    · simp only [if_neg h1]
      exact key
  | some prev =>
    by_cases ht : prev < t
    · rw [updateSeriesTimestamp_of_hit_advance t hfind ht]
      by_cases h1 : t < s.oldestEntryTs
      · simp only [if_pos h1]
      · simp only [if_neg h1]
    · rw [updateSeriesTimestamp_of_hit_noadvance t hfind ht]

theorem update_ts_lb (s : activeSeriesStripe) (t : Int) (l : Labels)
    (fp : Nat) (T0 : Int)
    (hlb : ∀ e ∈ allEntries s.refs, T0 ≤ e.nanos) (hT : T0 ≤ t) :
    ∀ e ∈ allEntries (s.updateSeriesTimestamp t l fp).refs,
      T0 ≤ e.nanos := by
  cases hfind : findInChain (mapGet s.refs fp) l with
  | none =>
    rw [updateSeriesTimestamp_of_miss t hfind]
    have key : ∀ e ∈ allEntries (mapSet s.refs fp (mapGet s.refs fp ++
        [activeSeriesEntry.mk l t (s.matchers.Matches l)])),
        T0 ≤ e.nanos := by
      intro e he
      rcases mem_allEntries_mapSet he with he1 | he1
      · rcases List.mem_append.mp he1 with he2 | he2
        · exact hlb e (mem_allEntries_of_mem_mapGet he2)
        · rcases List.mem_singleton.mp he2 with rfl
          exact hT
      · exact hlb e he1
    by_cases h1 : t < s.oldestEntryTs
    · simp only [if_pos h1]
      exact key
    · simp only [if_neg h1]
      exact key
  | some prev =>
    by_cases ht : prev < t
    · rw [updateSeriesTimestamp_of_hit_advance t hfind ht]
      have key : ∀ e ∈ allEntries (setNanos s.refs fp l t), T0 ≤ e.nanos := by
        intro e he
        rcases mem_allEntries_setNanos he with he1 | he1
        · rw [he1]
          exact hT
        · exact hlb e he1
      by_cases h1 : t < s.oldestEntryTs
      · simp only [if_pos h1]
        exact key
      · simp only [if_neg h1]
        exact key
    · rw [updateSeriesTimestamp_of_hit_noadvance t hfind ht]
      exact hlb

theorem update_refs_cases (s : activeSeriesStripe) (t : Int) (l : Labels)
    (fp : Nat) :
    (findInChain (mapGet s.refs fp) l = none ∧
      (s.updateSeriesTimestamp t l fp).refs =
        mapSet s.refs fp (mapGet s.refs fp ++
          [activeSeriesEntry.mk l t (s.matchers.Matches l)])) ∨
    (findInChain (mapGet s.refs fp) l ≠ none ∧
      (s.updateSeriesTimestamp t l fp).refs = setNanos s.refs fp l t) ∨
    (findInChain (mapGet s.refs fp) l ≠ none ∧
      (s.updateSeriesTimestamp t l fp).refs = s.refs) := by
  cases hfind : findInChain (mapGet s.refs fp) l with
  | none =>
    left
    refine ⟨rfl, ?e⟩
    rw [updateSeriesTimestamp_of_miss t hfind]
    by_cases h1 : t < s.oldestEntryTs
    · simp only [if_pos h1]
    · simp only [if_neg h1]
  | some prev =>
    by_cases ht : prev < t
    · right; left
      refine ⟨fun hc => Option.noConfusion hc, ?eadv⟩
      rw [updateSeriesTimestamp_of_hit_advance t hfind ht]
      by_cases h1 : t < s.oldestEntryTs
      · simp only [if_pos h1]
      · simp only [if_neg h1]
    · right; right
      rw [updateSeriesTimestamp_of_hit_noadvance t hfind ht]
      exact ⟨fun hc => Option.noConfusion hc, rfl⟩

end activeSeriesStripe

theorem mem_lbs_of_findInChain_ne_none
    {refs : List (Nat × List activeSeriesEntry)} {fp : Nat} {l : Labels}
    (h : findInChain (mapGet refs fp) l ≠ none) :
    l ∈ (allEntries refs).map (·.lbs) := by
  cases hfind : findInChain (mapGet refs fp) l with
  | none => exact absurd hfind h
  | some v =>
    have h1 := findInChain_some_mem hfind
    rcases List.mem_map.mp h1 with ⟨e, he, hxe⟩
    exact hxe ▸ List.mem_map_of_mem (·.lbs)
      (mem_allEntries_of_mem_mapGet he)

theorem stripeLabels_update_iff (s : activeSeriesStripe) (t : Int)
    (l : Labels) (fp : Nat) :
    ∀ x, x ∈ stripeLabels (s.updateSeriesTimestamp t l fp) ↔
      x ∈ stripeLabels s ∨ x = l := by
  intro x
  rcases activeSeriesStripe.update_refs_cases s t l fp with
    ⟨hmiss, hrefs⟩ | ⟨hhit, hrefs⟩ | ⟨hhit, hrefs⟩
  · unfold stripeLabels
    rw [hrefs]
    have hperm := (allEntries_mapSet_append_perm s.refs fp
      (activeSeriesEntry.mk l t (s.matchers.Matches l))).map (·.lbs)
    rw [hperm.mem_iff, List.map_append, List.mem_append]
    simp
  · unfold stripeLabels
    rw [hrefs, allEntries_setNanos_map_lbs]
    constructor
    · exact Or.inl
    · intro h
      rcases h with h | h
      · exact h
      · rw [h]
        exact mem_lbs_of_findInChain_ne_none hhit
  · unfold stripeLabels
    rw [hrefs]
    constructor
    · exact Or.inl
    · intro h
      rcases h with h | h
      · exact h
      · rw [h]
        exact mem_lbs_of_findInChain_ne_none hhit

theorem stripeWF_update (hash : Labels → Nat) (m : Matchers) (T0 : Int)
    (i : Fin numActiveSeriesStripes) (s : activeSeriesStripe)
    (hwf : StripeWF hash m T0 i s)
    (hm : ∀ x, (m.Matches x).length = m.MatcherNames.length)
    (l : Labels) (t : Int) (hT : T0 ≤ t)
    (hst : hash l % numActiveSeriesStripes = i.val) :
    StripeWF hash m T0 i (s.updateSeriesTimestamp t l (hash l)) := by
  have hml : (s.matchers.Matches l).length = s.activeMatching.elems.length := by
    rw [hwf.matchers_eq, hm l, ← hwf.matching_len]
  have hrefs5 :
      (∀ p ∈ (s.updateSeriesTimestamp t l (hash l)).refs,
        ∀ e ∈ p.2, hash e.lbs = p.1) ∧
      (∀ p ∈ (s.updateSeriesTimestamp t l (hash l)).refs,
        p.1 % numActiveSeriesStripes = i.val) ∧
      (keysOf (s.updateSeriesTimestamp t l (hash l)).refs).Nodup ∧
      (∀ p ∈ (s.updateSeriesTimestamp t l (hash l)).refs,
        (p.2.map (·.lbs)).Nodup) ∧
      (∀ e ∈ allEntries (s.updateSeriesTimestamp t l (hash l)).refs,
        e.matchesVec = m.Matches e.lbs) := by
    rcases activeSeriesStripe.update_refs_cases s t l (hash l) with
      ⟨hmiss, hr⟩ | ⟨hhit, hr⟩ | ⟨hhit, hr⟩
    · rw [hr]
      have := refsWF_insert hash m i.val s.refs l t hwf.placement_hash
        hwf.placement_stripe hwf.keys_nodup hwf.chains_nodup
        hwf.matches_eq hmiss hst
      rcases this with ⟨h1, h2, h3, h4, h5⟩
      rw [show mapSet s.refs (hash l) (mapGet s.refs (hash l) ++
          [activeSeriesEntry.mk l t (m.Matches l)]) =
          mapSet s.refs (hash l) (mapGet s.refs (hash l) ++
            [activeSeriesEntry.mk l t (s.matchers.Matches l)]) from by
        rw [hwf.matchers_eq]] at h1 h2 h3 h4 h5
      exact ⟨h1, h2, h3, h4, h5⟩
    · rw [hr]
      exact refsWF_setNanos hash m i.val s.refs (hash l) l t
        hwf.placement_hash hwf.placement_stripe hwf.keys_nodup
        hwf.chains_nodup hwf.matches_eq hhit
    · rw [hr]
      exact ⟨hwf.placement_hash, hwf.placement_stripe, hwf.keys_nodup,
        hwf.chains_nodup, hwf.matches_eq⟩
  exact
    { placement_hash := hrefs5.1
      placement_stripe := hrefs5.2.1
      keys_nodup := hrefs5.2.2.1
      chains_nodup := hrefs5.2.2.2.1
      matches_eq := hrefs5.2.2.2.2
      ts_lb := activeSeriesStripe.update_ts_lb s t l (hash l) T0
        hwf.ts_lb hT
      hint_ok := activeSeriesStripe.update_hint_inv s t l (hash l)
        hwf.hint_ok
      active_ok := activeSeriesStripe.update_active_inv s t l (hash l)
        hwf.active_ok
      matching_len := by
        rw [activeSeriesStripe.update_matching_elems_length s t l (hash l)
          hml]
        exact hwf.matching_len
      matching_ok := activeSeriesStripe.update_matching_all s t l (hash l)
        hwf.matching_ok hml
      matchers_eq := by
        rw [activeSeriesStripe.update_matchers_eq s t l (hash l)]
        exact hwf.matchers_eq }

theorem trackerWF_init (hash : Labels → Nat) (m : Matchers) (T0 : Int)
    (timeout : Int) :
    TrackerWF hash m T0 (NewActiveSeries m timeout) [] := by
  refine { stripes_wf := ?swf, mem_iff := ?mem, matchers_eq := rfl }
  case swf =>
    intro i
    show StripeWF hash m T0 i
      { matchers := m, oldestEntryTs := 0, refs := [], active := 0,
        activeMatching := resizeAndClear m.MatcherNames.length nilIntSlice }
    refine
      { placement_hash := by intro p hp; exact absurd hp (List.not_mem_nil p)
        placement_stripe := by intro p hp; exact absurd hp (List.not_mem_nil p)
        keys_nodup := List.nodup_nil
        chains_nodup := by intro p hp; exact absurd hp (List.not_mem_nil p)
        matches_eq := by intro e he; exact absurd he (List.not_mem_nil e)
        ts_lb := by intro e he; exact absurd he (List.not_mem_nil e)
        hint_ok := Or.inl rfl
        active_ok := by simp [allEntries]
        matching_len := by rw [resizeAndClear_elems, List.length_replicate]
        matching_ok := by
          intro j
          rw [resizeAndClear_elems, getD_replicate_zero]
          simp [allEntries, countMatch]
        matchers_eq := rfl }
  case mem =>
    intro x
    constructor
    · rintro ⟨i, hx⟩
      have hx2 : x ∈ stripeLabels
          { matchers := m, oldestEntryTs := 0, refs := [], active := 0,
            activeMatching :=
              resizeAndClear m.MatcherNames.length nilIntSlice } := hx
      simp [stripeLabels, allEntries] at hx2
    · intro hx
      simp at hx

theorem trackerWF_update (hash : Labels → Nat) (m : Matchers) (T0 : Int)
    (hm : ∀ x, (m.Matches x).length = m.MatcherNames.length)
    {c : ActiveSeries} {L : List Labels} (hwf : TrackerWF hash m T0 c L)
    (l : Labels) (t : Int) (hT : T0 ≤ t) :
    TrackerWF hash m T0 (c.UpdateSeries hash l t) (L ++ [l]) := by
  have hstripes : ∀ i, (c.UpdateSeries hash l t).stripes i =
      Function.update c.stripes (stripeIdOf (hash l))
        ((c.stripes (stripeIdOf (hash l))).updateSeriesTimestamp t l
          (hash l)) i := fun i => rfl
  refine { stripes_wf := ?swf, mem_iff := ?mem,
           matchers_eq := hwf.matchers_eq }
  case swf =>
    intro i
    rw [hstripes i]
    rcases eq_or_ne i (stripeIdOf (hash l)) with hi | hi
    · subst hi
      rw [Function.update_same]
      exact stripeWF_update hash m T0 _ _ (hwf.stripes_wf _)
        hm l t hT rfl
    · rw [Function.update_noteq hi]
      exact hwf.stripes_wf i
  case mem =>
    intro x
    constructor
    · rintro ⟨i, hx⟩
      rw [hstripes i] at hx
      rcases eq_or_ne i (stripeIdOf (hash l)) with hi | hi
      · subst hi
        rw [Function.update_same] at hx
        rcases (stripeLabels_update_iff _ t l (hash l) x).mp hx with h | h
        · exact List.mem_append.mpr
            (Or.inl ((hwf.mem_iff x).mp ⟨_, h⟩))
        · exact List.mem_append.mpr (Or.inr (by simp [h]))
      · rw [Function.update_noteq hi] at hx
        exact List.mem_append.mpr (Or.inl ((hwf.mem_iff x).mp ⟨i, hx⟩))
    · intro hx
      rcases List.mem_append.mp hx with hx | hx
      · rcases (hwf.mem_iff x).mpr hx with ⟨i, hxi⟩
        refine ⟨i, ?ex⟩
        rw [hstripes i]
        rcases eq_or_ne i (stripeIdOf (hash l)) with hi | hi
        · subst hi
          rw [Function.update_same]
          exact (stripeLabels_update_iff _ t l (hash l) x).mpr (Or.inl hxi)
        · rw [Function.update_noteq hi]
          exact hxi
      · refine ⟨stripeIdOf (hash l), ?ex2⟩
        rw [hstripes _, Function.update_same]
        exact (stripeLabels_update_iff _ t l (hash l) x).mpr
          (Or.inr (List.mem_singleton.mp hx))

theorem trackerWF_fold (hash : Labels → Nat) (m : Matchers) (T0 : Int)
    (hm : ∀ x, (m.Matches x).length = m.MatcherNames.length) :
    ∀ (us : List (Labels × Int)) {c : ActiveSeries} {L : List Labels},
      TrackerWF hash m T0 c L → (∀ p ∈ us, T0 ≤ p.2) →
      TrackerWF hash m T0
        (us.foldl (fun acc p => acc.UpdateSeries hash p.1 p.2) c)
        (L ++ us.map Prod.fst) := by
  intro us
  induction us with
  | nil =>
    intro c L hwf _
    simpa using hwf
  | cons p rest ih =>
    intro c L hwf hts
    obtain ⟨l, t⟩ := p
    simp only [List.foldl_cons, List.map_cons]
    have h1 := trackerWF_update hash m T0 hm hwf l t (hts (l, t) (by simp))
    have h2 := ih h1 (fun q hq => hts q (by simp [hq]))
    rw [show L ++ l :: rest.map Prod.fst =
      (L ++ [l]) ++ rest.map Prod.fst from by simp]
    exact h2

theorem fold_total_fst
    (f : Fin numActiveSeriesStripes → activeSeriesStripe) :
    ∀ (is : List (Fin numActiveSeriesStripes)) (t0 : Int) (m0 : List Int),
      (is.foldl (fun (acc : Int × List Int) i =>
        let g := (f i).getTotalAndUpdateMatching acc.2
        (acc.1 + g.1, g.2)) (t0, m0)).1 =
      t0 + (is.map (fun i => (f i).active)).sum := by
  intro is
  induction is with
  | nil => intro t0 m0; simp
  | cons i rest ih =>
    intro t0 m0
    simp only [List.foldl_cons, List.map_cons, List.sum_cons]
    rw [ih]
    show t0 + ((f i).getTotalAndUpdateMatching m0).1 + _ = _
    rw [show ((f i).getTotalAndUpdateMatching m0).1 = (f i).active from rfl]
    ring

theorem fold_total_getD
    (f : Fin numActiveSeriesStripes → activeSeriesStripe) :
    ∀ (is : List (Fin numActiveSeriesStripes)) (t0 : Int) (m0 : List Int),
      (∀ i, (f i).activeMatching.elems.length ≤ m0.length) →
      (∀ j, (is.foldl (fun (acc : Int × List Int) i =>
          let g := (f i).getTotalAndUpdateMatching acc.2
          (acc.1 + g.1, g.2)) (t0, m0)).2.getD j 0 =
        m0.getD j 0 +
          (is.map (fun i =>
            (f i).activeMatching.elems.getD j 0)).sum) ∧
      (is.foldl (fun (acc : Int × List Int) i =>
        let g := (f i).getTotalAndUpdateMatching acc.2
        (acc.1 + g.1, g.2)) (t0, m0)).2.length = m0.length := by
  intro is
  induction is with
  | nil =>
    intro t0 m0 _
    constructor
    · intro j
      simp
    · rfl
  | cons i rest ih =>
    intro t0 m0 hlen
    have hilen : (f i).activeMatching.elems.length ≤ m0.length := hlen i
    have hm0' : (addInto (f i).activeMatching.elems m0).length =
        m0.length := addInto_length hilen
    have hlen' : ∀ i2, (f i2).activeMatching.elems.length ≤
        (addInto (f i).activeMatching.elems m0).length := by
      intro i2
      rw [hm0']
      exact hlen i2
    have ihr := ih (t0 + ((f i).getTotalAndUpdateMatching m0).1)
      (addInto (f i).activeMatching.elems m0) hlen'
    constructor
    · intro j
      simp only [List.foldl_cons, List.map_cons, List.sum_cons]
      rw [show ((f i).getTotalAndUpdateMatching m0).2 =
        addInto (f i).activeMatching.elems m0 from rfl]
      rw [(ihr.1) j, addInto_getD hilen j]
      ring
    · simp only [List.foldl_cons]
      rw [show ((f i).getTotalAndUpdateMatching m0).2 =
        addInto (f i).activeMatching.elems m0 from rfl]
      rw [ihr.2, hm0']

theorem mem_catLabels (f : Fin numActiveSeriesStripes → activeSeriesStripe) :
    ∀ (is : List (Fin numActiveSeriesStripes)) (x : Labels),
      x ∈ catLabels f is ↔ ∃ i ∈ is, x ∈ stripeLabels (f i) := by
  intro is x
  induction is with
  | nil => simp [catLabels]
  | cons i rest ih =>
    simp only [catLabels, List.mem_append, ih, List.mem_cons]
    constructor
    · rintro (h | ⟨i2, hi2, h⟩)
      · exact ⟨i, Or.inl rfl, h⟩
      · exact ⟨i2, Or.inr hi2, h⟩
    · rintro ⟨i2, hi2 | hi2, h⟩
      · exact Or.inl (hi2 ▸ h)
      · exact Or.inr ⟨i2, hi2, h⟩

theorem catLabels_length
    (f : Fin numActiveSeriesStripes → activeSeriesStripe) :
    ∀ is : List (Fin numActiveSeriesStripes),
      (catLabels f is).length =
        (is.map (fun i => ((stripeLabels (f i)).length : Int))).sum := by
  intro is
  induction is with
  | nil => simp [catLabels]
  | cons i rest ih =>
    simp only [catLabels, List.length_append, List.map_cons, List.sum_cons]
    push_cast
    rw [ih]

theorem catLabels_countP
    (f : Fin numActiveSeriesStripes → activeSeriesStripe)
    (p : Labels → Bool) :
    ∀ is : List (Fin numActiveSeriesStripes),
      ((catLabels f is).countP p : Int) =
        (is.map (fun i => ((stripeLabels (f i)).countP p : Int))).sum := by
  intro is
  induction is with
  | nil => simp [catLabels]
  | cons i rest ih =>
    simp only [catLabels, List.countP_append, List.map_cons, List.sum_cons]
    push_cast
    rw [ih]

theorem catLabels_nodup
    (f : Fin numActiveSeriesStripes → activeSeriesStripe)
    (g : Labels → Fin numActiveSeriesStripes)
    (hnd : ∀ i, (stripeLabels (f i)).Nodup)
    (hplace : ∀ i, ∀ x ∈ stripeLabels (f i), g x = i) :
    ∀ is : List (Fin numActiveSeriesStripes), is.Nodup →
      (catLabels f is).Nodup := by
  intro is
  induction is with
  | nil =>
    intro _
    simp [catLabels]
  | cons i rest ih =>
    intro hnd2
    show (stripeLabels (f i) ++ catLabels f rest).Nodup
    rw [List.nodup_append]
    refine ⟨hnd i, ih (List.nodup_cons.mp hnd2).2, ?disj⟩
    intro x hx1 hx2
    rcases (mem_catLabels f rest x).mp hx2 with ⟨i2, hi2, hx2b⟩
    have h1 : g x = i := hplace i x hx1
    have h2 : g x = i2 := hplace i2 x hx2b
    cases h1.symm.trans h2
    exact (List.nodup_cons.mp hnd2).1 hi2

theorem stripe_of_mem_labels {hash : Labels → Nat} {m : Matchers} {T0 : Int}
    {i : Fin numActiveSeriesStripes} {s : activeSeriesStripe}
    (hwf : StripeWF hash m T0 i s) {x : Labels}
    (hx : x ∈ stripeLabels s) : stripeIdOf (hash x) = i := by
  rcases mem_allEntries_lbs.mp hx with ⟨p, hp, e, he, hxe⟩
  have h1 : hash x = p.1 := by
    rw [← hxe]
    exact hwf.placement_hash p hp e he
  apply Fin.ext
  show hash x % numActiveSeriesStripes = i.val
  rw [h1]
  exact hwf.placement_stripe p hp

theorem fold_timeout (hash : Labels → Nat) :
    ∀ (us : List (Labels × Int)) (c : ActiveSeries),
      (us.foldl (fun acc p => acc.UpdateSeries hash p.1 p.2) c).timeout =
        c.timeout := by
  intro us
  induction us with
  | nil => intro c; rfl
  | cons p rest ih =>
    intro c
    simp only [List.foldl_cons]
    rw [ih]
    rfl

set_option maxRecDepth 8192 in
/-- C1: for any sequence of `UpdateSeries` calls whose timestamps all lie
at or above `T0`, an `Active` call whose purge cutoff `now - timeout` is at
most `T0` returns total equal to the number of distinct label sets used,
and the per-matcher vector at index `j` counts the distinct series whose
labels satisfy matcher `j`; moreover, for every tracker and every time,
the total returned by `Active` equals the sum over all 512 stripes of the
purged stripes' cached `active` counters. -/
theorem claim_C1_active_totals (hash : Labels → Nat) (m : Matchers)
    (timeout : Int) (updates : List (Labels × Int)) (T0 now : Int)
    (c : ActiveSeries)
    (hc : c = updates.foldl (fun acc p => acc.UpdateSeries hash p.1 p.2)
      (NewActiveSeries m timeout))
    (hm : ∀ x, (m.Matches x).length = m.MatcherNames.length)
    (hT : ∀ p ∈ updates, T0 ≤ p.2)
    (hcut : now - timeout ≤ T0) :
    (c.Active now).2.1 = ((updates.map Prod.fst).dedup.length : Int) ∧
    (∀ j, (c.Active now).2.2.1.getD j 0 =
      (((updates.map Prod.fst).dedup.filter
        (fun l => (m.Matches l).getD j false)).length : Int)) ∧
    (∀ (c' : ActiveSeries) (now' : Int), (c'.Active now').2.1 =
      ((List.finRange numActiveSeriesStripes).map
        (fun i => (((c'.Active now').1).stripes i).active)).sum) := by
  have hwf : TrackerWF hash m T0 c (updates.map Prod.fst) := by
    rw [hc]
    simpa using trackerWF_fold hash m T0 hm updates
      (trackerWF_init hash m T0 timeout) hT
  have hcto : c.timeout = timeout := by
    rw [hc, fold_timeout hash updates]
    rfl
  have hcut2 : now - c.timeout ≤ T0 := by
    rw [hcto]
    exact hcut
  have hkeep : ∀ i, ∀ e ∈ allEntries (c.stripes i).refs,
      now - c.timeout ≤ e.nanos := by
    intro i e he
    exact le_trans hcut2 ((hwf.stripes_wf i).ts_lb e he)
  have hI6 : ∀ i, ∀ e ∈ allEntries (c.stripes i).refs,
      e.matchesVec.length = (c.stripes i).activeMatching.elems.length := by
    intro i e he
    rw [(hwf.stripes_wf i).matches_eq e he, hm e.lbs,
      (hwf.stripes_wf i).matching_len]
  have hpk := fun i => activeSeriesStripe.purge_keepall (c.stripes i)
    (now - c.timeout) (hkeep i) (hwf.stripes_wf i).active_ok
    (hwf.stripes_wf i).matching_ok (hI6 i)
  have hndL : (catLabels c.stripes
      (List.finRange numActiveSeriesStripes)).Nodup :=
    catLabels_nodup c.stripes (fun x => stripeIdOf (hash x))
      (fun i => allEntries_lbs_nodup hash _
        (hwf.stripes_wf i).placement_hash
        (hwf.stripes_wf i).keys_nodup (hwf.stripes_wf i).chains_nodup)
      (fun i x hx => stripe_of_mem_labels (hwf.stripes_wf i) hx)
      (List.finRange numActiveSeriesStripes) (List.nodup_finRange _)
  have hperm : (catLabels c.stripes
      (List.finRange numActiveSeriesStripes)).Perm
      (updates.map Prod.fst).dedup :=
    List.perm_of_nodup_nodup_toFinset_eq hndL (List.nodup_dedup _)
      (Finset.ext fun x => by
        rw [List.mem_toFinset, List.mem_toFinset, List.mem_dedup,
          mem_catLabels, ← hwf.mem_iff x]
        constructor
        · rintro ⟨i, _, hx⟩
          exact ⟨i, hx⟩
        · rintro ⟨i, hx⟩
          exact ⟨i, List.mem_finRange i, hx⟩)
  have hactive : ∀ i, ((c.purgeAll (now - c.timeout)).stripes i).active =
      ((stripeLabels (c.stripes i)).length : Int) := by
    intro i
    show ((c.stripes i).purge (now - c.timeout)).active = _
    rw [(hpk i).2.1]
    simp [stripeLabels]
  have hmatchi : ∀ j i, ((c.purgeAll (now - c.timeout)).stripes
      i).activeMatching.elems.getD j 0 =
      ((stripeLabels (c.stripes i)).countP
        (fun l => (m.Matches l).getD j false) : Int) := by
    intro j i
    show ((c.stripes i).purge
      (now - c.timeout)).activeMatching.elems.getD j 0 = _
    rw [(hpk i).2.2.1 j]
    norm_cast
    exact countMatch_eq_countP_lbs j m _ ((hwf.stripes_wf i).matches_eq)
  refine ⟨?total, ?permatcher, ?sumstripes⟩
  case total =>
    show ((List.finRange numActiveSeriesStripes).foldl
      (fun (acc : Int × List Int) i =>
        let g := ((c.purgeAll (now - c.timeout)).stripes
          i).getTotalAndUpdateMatching acc.2
        (acc.1 + g.1, g.2))
      ((0 : Int),
        (resizeAndClear c.matchers.MatcherNames.length
          nilIntSlice).elems)).1 = _
    rw [fold_total_fst]
    have hmapeq : (List.finRange numActiveSeriesStripes).map
        (fun i => ((c.purgeAll (now - c.timeout)).stripes i).active) =
      (List.finRange numActiveSeriesStripes).map
        (fun i => ((stripeLabels (c.stripes i)).length : Int)) :=
      List.map_congr_left (fun i _ => hactive i)
    rw [hmapeq, ← catLabels_length c.stripes
      (List.finRange numActiveSeriesStripes), hperm.length_eq, zero_add]
  case permatcher =>
    intro j
    show ((List.finRange numActiveSeriesStripes).foldl
      (fun (acc : Int × List Int) i =>
        let g := ((c.purgeAll (now - c.timeout)).stripes
          i).getTotalAndUpdateMatching acc.2
        (acc.1 + g.1, g.2))
      ((0 : Int),
        (resizeAndClear c.matchers.MatcherNames.length
          nilIntSlice).elems)).2.getD j 0 = _
    have hlens : ∀ i, ((c.purgeAll (now - c.timeout)).stripes
        i).activeMatching.elems.length ≤
        (resizeAndClear c.matchers.MatcherNames.length
          nilIntSlice).elems.length := by
      intro i
      rw [resizeAndClear_elems, List.length_replicate, hwf.matchers_eq]
      show ((c.stripes i).purge
        (now - c.timeout)).activeMatching.elems.length ≤ _
      rw [(hpk i).2.2.2, (hwf.stripes_wf i).matching_len]
    rw [(fold_total_getD ((c.purgeAll (now - c.timeout)).stripes)
      (List.finRange numActiveSeriesStripes) 0
      ((resizeAndClear c.matchers.MatcherNames.length nilIntSlice).elems)
      hlens).1 j]
    have hmapeq2 : (List.finRange numActiveSeriesStripes).map
        (fun i => ((c.purgeAll (now - c.timeout)).stripes
          i).activeMatching.elems.getD j 0) =
      (List.finRange numActiveSeriesStripes).map
        (fun i => ((stripeLabels (c.stripes i)).countP
          (fun l => (m.Matches l).getD j false) : Int)) :=
      List.map_congr_left (fun i _ => hmatchi j i)
    rw [hmapeq2, ← catLabels_countP c.stripes
      (fun l => (m.Matches l).getD j false)
      (List.finRange numActiveSeriesStripes), hperm.countP_eq,
      List.countP_eq_length_filter, resizeAndClear_elems,
      getD_replicate_zero, zero_add]
  case sumstripes =>
    intro c' now'
    show ((List.finRange numActiveSeriesStripes).foldl
      (fun (acc : Int × List Int) i =>
        let g := ((c'.purgeAll (now' - c'.timeout)).stripes
          i).getTotalAndUpdateMatching acc.2
        (acc.1 + g.1, g.2))
      ((0 : Int),
        (resizeAndClear c'.matchers.MatcherNames.length
          nilIntSlice).elems)).1 =
      ((List.finRange numActiveSeriesStripes).map
        (fun i => ((c'.purgeAll (now' - c'.timeout)).stripes i).active)).sum
    rw [fold_total_fst]
    exact zero_add _

/-- Witness for C1 at a concrete hash, matcher set and update sequence:
three updates over two distinct label sets give total 2. -/
theorem claim_C1_witness :
    (∀ x, (mOne.Matches x).length = mOne.MatcherNames.length) ∧
    (∀ p ∈ [(lblA, (5 : Int)), (lblB, 6), (lblA, 7)], (5 : Int) ≤ p.2) ∧
    ((12 : Int) - 10 ≤ 5) ∧
    ((([(lblA, (5 : Int)), (lblB, 6), (lblA, 7)].foldl
        (fun acc p => acc.UpdateSeries lenHash p.1 p.2)
        (NewActiveSeries mOne 10)).Active 12).2.1 =
      (([(lblA, (5 : Int)), (lblB, 6), (lblA, 7)].map
        Prod.fst).dedup.length : Int)) := by
  have h := claim_C1_active_totals lenHash mOne 10
    [(lblA, (5 : Int)), (lblB, 6), (lblA, 7)] 5 12 _ rfl
    (fun x => rfl) (by decide) (by decide)
  exact ⟨fun x => rfl, by decide, by decide, h.1⟩
